import Mathlib

/-!
Verification of the mmpio GWAS summary-statistics merging pipeline.

The Go program merges several GWAS summary-statistics tables into one
combined table keyed by genomic variant (CPRA), optionally enriched with
fine-mapping results and cross-dataset heterogeneity statistics.

This file gives a shallow embedding of the pipeline:
* files are modelled as lists of already-column-projected rows (the tabular
  stream reader resolves column names once per file; its output is exactly
  such a list),
* Go channels and worker goroutines collapse to list concatenation (the
  coordinator drains all workers into one map; membership and per-key
  contents are interleaving-independent, which the theorems make explicit),
* `float64` values that only ever flow through parsing and comparison are
  modelled by `GoFloat` (either NaN or an exact rational),
* `log.Fatal` aborts are modelled by `Except String`,
* the real-valued heterogeneity formulas are modelled over `ℝ`, with the
  standard normal survival function, the chi-squared CDF, the square root
  and float formatting taken as parameters.
-/

namespace Mmpio

/-! ## Float model

`GoFloat` models a Go `float64` as either NaN or an exact rational value.
This is adequate for the code under verification, which only parses
p-values/betas from text and compares them; the claims at stake do not
depend on binary rounding.  `goStrconvParseFloat` models
`strconv.ParseFloat(s, 64)` on the grammar the pipeline relies on:
the literal `NaN`, and decimal numbers in plain or scientific form
(infinities, hex floats, digit underscores and out-of-range mantissas are
outside the model). -/

inductive GoFloat where
  | nan : GoFloat
  | val : ℚ → GoFloat
deriving DecidableEq

/-- The Go comparison `p < t` for a parsed float `p` against a finite
configuration threshold `t`: any comparison with NaN is false. -/
def goLTq : GoFloat → ℚ → Bool
  | .nan, _ => false
  | .val q, t => decide (q < t)

def digitsToNat (ds : List Char) : ℕ :=
  ds.foldl (fun acc c => 10 * acc + (c.toNat - 48)) 0

def splitSign : List Char → Bool × List Char
  | '-' :: rest => (true, rest)
  | '+' :: rest => (false, rest)
  | cs => (false, cs)

/-- Mantissa of a decimal float literal: its digits read as a natural
number together with the number of digits after the decimal point, so the
mantissa value is the first component divided by ten to the second. -/
def parseMantissa (cs : List Char) : Option (ℕ × ℕ × List Char) :=
  let ipart := cs.takeWhile Char.isDigit
  let rest1 := cs.dropWhile Char.isDigit
  match rest1 with
  | '.' :: rest2 =>
    let fpart := rest2.takeWhile Char.isDigit
    let rest3 := rest2.dropWhile Char.isDigit
    if ipart.isEmpty && fpart.isEmpty then none
    else some (digitsToNat (ipart ++ fpart), fpart.length, rest3)
  | _ =>
    if ipart.isEmpty then none
    else some (digitsToNat ipart, 0, rest1)

def parseExponent : List Char → Option ℤ
  | [] => some 0
  | c :: rest =>
    if c = 'e' ∨ c = 'E' then
      let (neg, rest2) := splitSign rest
      let ds := rest2.takeWhile Char.isDigit
      let rest3 := rest2.dropWhile Char.isDigit
      if ds.isEmpty ∨ ¬ rest3.isEmpty then none
      else some (if neg then -(digitsToNat ds : ℤ) else (digitsToNat ds : ℤ))
    else none

/-- Value of a decimal float literal: `mantissa * 10 ^ exponent`, signed.
The arithmetic is carried out on integer numerator and denominator so that
the resulting rational is a single normalized fraction. -/
def parseDecimal (cs : List Char) : Option ℚ :=
  let (neg, cs1) := splitSign cs
  match parseMantissa cs1 with
  | none => none
  | some (m, fracLen, rest) =>
    match parseExponent rest with
    | none => none
    | some e =>
      let num : ℤ := (m : ℤ) * ((10 ^ e.toNat : ℕ) : ℤ)
      let den : ℤ := ((10 ^ ((-e).toNat + fracLen) : ℕ) : ℤ)
      let mag : ℚ := Rat.divInt num den
      some (if neg then -mag else mag)

/-- Model of `strconv.ParseFloat(s, 64)` restricted to the inputs the
pipeline relies on (see the module comment of this section). -/
def goStrconvParseFloat (s : String) : Except String GoFloat :=
  if s = "NaN" then .ok .nan
  else
    match parseDecimal s.toList with
    | some q => .ok (.val q)
    | none => .error (":: parsing float :: " ++ s)

/-- util.go `parseFloat64NaN`: the literal text NA is parsed as the
parseable text NaN; everything else goes to `strconv.ParseFloat` directly. -/
def parseFloat64NaN (input : String) : Except String GoFloat :=
  if input = "NA" then goStrconvParseFloat "NaN" else goStrconvParseFloat input

/-- util.go `contains`. -/
def contains (slice : List String) (item : String) : Bool :=
  slice.any (fun elem => elem == item)

/-- util.go / mmpio.go `sum` over float64 slices, here over exact
rationals: every number reaching it in the embedding is rational, with the
transcendental library functions (square root, distribution functions)
abstracted as parameters where they occur. -/
def sum (slice : List ℚ) : ℚ :=
  slice.foldl (fun total v => total + v) 0

/-! ## Data model (input_parsing.go, cli.go) -/

/-- input_parsing.go `CPRA`: the composite variant key. -/
structure CPRA where
  Chrom : String
  Pos : String
  Ref : String
  Alt : String
deriving DecidableEq

/-- input_parsing.go `SummaryStats`. -/
structure SummaryStats where
  PVal : String
  Beta : String
  SEBeta : String
  AF : String
deriving DecidableEq

/-- input_parsing.go `InputSummaryStatsRow` (struct embedding flattened to
named fields). -/
structure InputSummaryStatsRow where
  Tag : String
  cpra : CPRA
  stats : SummaryStats
deriving DecidableEq

/-- input_parsing.go `InputFinemapRow`. -/
structure InputFinemapRow where
  Tag : String
  cpra : CPRA
  PIP : String
  CS : String
deriving DecidableEq

/-- input_parsing.go `OutputStats`. -/
structure OutputStats where
  Tag : String
  PVal : String
  Beta : String
  SEBeta : String
  AF : String
  PIP : String
  CS : String
deriving DecidableEq

/-- cli.go `InputConf`.  The p-value threshold is a `float64` decoded from
JSON; JSON numbers are finite, so it is carried as an exact rational. -/
structure InputConf where
  tag : String
  filepath : String
  colChrom : String
  colPos : String
  colRef : String
  colAlt : String
  colPVal : String
  colBeta : String
  colSEBeta : String
  colAF : String
  pvalThreshold : ℚ
  finemapFilepath : String
deriving DecidableEq

/-- cli.go `HeterogeneityTestConf`. -/
structure HeterogeneityTestConf where
  Tag : String
  Compare : List String
deriving DecidableEq

/-- cli.go `Conf`. -/
structure Conf where
  Inputs : List InputConf
  HeterogeneityTests : List HeterogeneityTestConf
deriving DecidableEq

/-- part_004 `outputDefaultMissingValue`. -/
def outputDefaultMissingValue : String := "NA"

/-! ## Configuration validation (cli.go `readConf`)

The JSON file read and `json.Unmarshal` step is an external collaborator;
the embedding starts from the decoded `Conf` value and models the manual
field validation that follows it.  Go distinguishes a `nil` slice (field
absent from the JSON) from an empty slice only in the wording of the fatal
message, so the two empty-`Inputs` checks collapse to one here. -/

/-- The per-input validation chain of cli.go `readConf`, in source order:
every field is required, and a `pval_threshold` equal to `0` (the value Go
gives a missing JSON key) is reported as a missing key. -/
def validateInputConf (input : InputConf) : Except String Unit :=
  if input.tag = "" then .error "Missing tag key in inputs"
  else if input.filepath = "" then .error "Missing filepath key in inputs"
  else if input.colChrom = "" then .error "Missing col_chrom key in inputs"
  else if input.colPos = "" then .error "Missing col_pos key in inputs"
  else if input.colRef = "" then .error "Missing col_ref key in inputs"
  else if input.colAlt = "" then .error "Missing col_alt key in inputs"
  else if input.colPVal = "" then .error "Missing col_pval key in inputs"
  else if input.colBeta = "" then .error "Missing col_beta key in inputs"
  else if input.colSEBeta = "" then .error "Missing col_sebeta key in inputs"
  else if input.colAF = "" then .error "Missing col_af key in inputs"
  else if input.pvalThreshold = 0 then .error "Missing pval_threshold key in inputs"
  else .ok ()

def validateInputs : List InputConf → Except String Unit
  | [] => .ok ()
  | i :: rest => do
    validateInputConf i
    validateInputs rest

def validateHetTest (t : HeterogeneityTestConf) : Except String Unit :=
  if t.Tag = "" then .error "Missing tag key in heterogeneity_tests"
  else if t.Compare.length < 2 then .error "Need at least 2 GWAS to run heterogeneity test"
  else .ok ()

def validateHetTests : List HeterogeneityTestConf → Except String Unit
  | [] => .ok ()
  | t :: rest => do
    validateHetTest t
    validateHetTests rest

/-- cli.go `readConf`, validation phase over the decoded configuration. -/
def readConf (conf : Conf) : Except String Conf :=
  if conf.Inputs.length < 1 then
    .error "No summary stat provided in the configuration file. Need at least 1."
  else do
    validateInputs conf.Inputs
    validateHetTests conf.HeterogeneityTests
    pure conf

/-! ## Tabular inputs

A summary-statistics file is modelled as the sequence of rows the tabular
stream reader produces for it after header resolution: the variant key
fields together with the four statistics fields, all as text.  A
fine-mapping file is the sequence of its `(v, cs_specific_prob, cs)`
column triples. -/

abbrev SummaryFile := List (CPRA × SummaryStats)

abbrev FinemapFile := List (String × String × String)

/-- input_parsing.go `streamSummaryStatsFile`: every row of the file is
tagged with the dataset's tag. -/
def streamSummaryStatsFile (inputConf : InputConf) (file : SummaryFile) :
    List InputSummaryStatsRow :=
  file.map (fun r => { Tag := inputConf.tag, cpra := r.1, stats := r.2 })

/-- The row loop of input_parsing.go `streamVariantsAboveThreshold`: parse
each p-value (a parse failure is fatal) and keep the keys of rows whose
p-value is strictly below the threshold. -/
def selectLoop (threshold : ℚ) : List InputSummaryStatsRow → Except String (List CPRA)
  | [] => .ok []
  | row :: rest => do
    let parsedPVal ← parseFloat64NaN row.stats.PVal
    let tail ← selectLoop threshold rest
    if goLTq parsedPVal threshold then .ok (row.cpra :: tail) else .ok tail

/-- input_parsing.go `streamVariantsAboveThreshold`. -/
def streamVariantsAboveThreshold (inputConf : InputConf) (file : SummaryFile) :
    Except String (List CPRA) :=
  selectLoop inputConf.pvalThreshold (streamSummaryStatsFile inputConf file)

/-- part_004 `scanForVariantSelection`: all datasets feed one shared
channel; the coordinator collects the keys into a set.  The set is modelled
by a list up to membership, concatenated in dataset order (membership is
interleaving-independent, which `scanForVariantSelection_mem_iff` makes
explicit). -/
def scanForVariantSelection : List (InputConf × SummaryFile) → Except String (List CPRA)
  | [] => .ok []
  | (inputConf, file) :: rest => do
    let xs ← streamVariantsAboveThreshold inputConf file
    let ys ← scanForVariantSelection rest
    .ok (xs ++ ys)

/-- input_parsing.go `streamRowsFromSelection`: re-stream the file and keep
the full rows whose key is in the selected set. -/
def streamRowsFromSelection (inputConf : InputConf) (file : SummaryFile)
    (selectedVariants : List CPRA) : List InputSummaryStatsRow :=
  (streamSummaryStatsFile inputConf file).filter
    (fun row => decide (row.cpra ∈ selectedVariants))

/-- The `OutputStats` value built by the coordinator loop of part_004
`findVariantStats`: statistics text carried through verbatim, fine-mapping
fields defaulted to the missing marker. -/
def rowToOutputStats (parsedRow : InputSummaryStatsRow) : OutputStats :=
  { Tag := parsedRow.Tag
    PVal := parsedRow.stats.PVal
    Beta := parsedRow.stats.Beta
    SEBeta := parsedRow.stats.SEBeta
    AF := parsedRow.stats.AF
    PIP := outputDefaultMissingValue
    CS := outputDefaultMissingValue }

/-- The Go map `map[CPRA][]OutputStats`, embedded as an association list
with at most one binding per key (the upsert below preserves this). -/
abbrev StatsMap := List (CPRA × List OutputStats)

/-- Lookup in the variant map; a missing key reads as the empty collection,
matching the Go append-or-insert idiom. -/
def mapGet : StatsMap → CPRA → List OutputStats
  | [], _ => []
  | e :: rest, k => if e.1 = k then e.2 else mapGet rest k

/-- One step of the coordinator loop of part_004 `findVariantStats`:
append the row to the collection of its key, creating the binding if the
key is new. -/
def addOutputStats : StatsMap → InputSummaryStatsRow → StatsMap
  | [], parsedRow => [(parsedRow.cpra, [rowToOutputStats parsedRow])]
  | e :: rest, parsedRow =>
    if e.1 = parsedRow.cpra then (e.1, e.2 ++ [rowToOutputStats parsedRow]) :: rest
    else e :: addOutputStats rest parsedRow

/-- All rows that reach the shared channel of part_004 `findVariantStats`,
in dataset order (the claims proved about the resulting map are
interleaving-independent). -/
def collectSelectedRows (inputs : List (InputConf × SummaryFile))
    (selectedVariants : List CPRA) : List InputSummaryStatsRow :=
  (inputs.map (fun cf => streamRowsFromSelection cf.1 cf.2 selectedVariants)).flatten

/-- part_004 `findVariantStats`. -/
def findVariantStats (inputs : List (InputConf × SummaryFile))
    (selectedVariants : List CPRA) : StatsMap :=
  (collectSelectedRows inputs selectedVariants).foldl addOutputStats []

/-! ## Fine-mapping merge (input_parsing.go `streamFinemapFile`,
part_004 `combineFinemapping`) -/

/-- Model of Go `strings.Split` on a single-character separator, over the
character list: splitting the empty text gives one empty field, and every
separator occurrence starts a new field. -/
def splitOnChar (sep : Char) : List Char → List (List Char)
  | [] => [[]]
  | c :: rest =>
    if c = sep then [] :: splitOnChar sep rest
    else
      match splitOnChar sep rest with
      | [] => [[c]]
      | t :: ts => (c :: t) :: ts

/-- Go `strings.Split(s, sep)` for a one-character separator. -/
def goStringsSplit (s : String) (sep : Char) : List String :=
  (splitOnChar sep s.toList).map (fun l => String.mk l)

/-- input_parsing.go `streamFinemapFile`: the composite key column `v` is
split on `:`; anything but exactly four parts is fatal; the four parts are
used verbatim as the variant key. -/
def streamFinemapFile (inputConf : InputConf) : FinemapFile → Except String (List InputFinemapRow)
  | [] => .ok []
  | entry :: rest =>
    match goStringsSplit entry.1 ':' with
    | [chrom, pos, ref, alt] => do
      let tail ← streamFinemapFile inputConf rest
      .ok ({ Tag := inputConf.tag, cpra := ⟨chrom, pos, ref, alt⟩,
             PIP := entry.2.1, CS := entry.2.2 } :: tail)
    | _ => .error ("Could not parse CPRA from value " ++ entry.1)

/-- The nested Go map `map[string]map[CPRA]InputFinemapRow` of part_004
`combineFinemapping`, flattened to one binding per (tag, key) pair; later
rows overwrite earlier ones for the same pair, as in the Go loop. -/
abbrev FmGather := List ((String × CPRA) × InputFinemapRow)

def addFmRow : FmGather → InputFinemapRow → FmGather
  | [], finemapRow => [((finemapRow.Tag, finemapRow.cpra), finemapRow)]
  | e :: rest, finemapRow =>
    if e.1 = (finemapRow.Tag, finemapRow.cpra) then
      ((finemapRow.Tag, finemapRow.cpra), finemapRow) :: rest
    else e :: addFmRow rest finemapRow

def fmLookup : FmGather → String → CPRA → Option InputFinemapRow
  | [], _, _ => none
  | e :: rest, tag, k => if e.1 = (tag, k) then some e.2 else fmLookup rest tag k

/-- The rows the fine-mapping workers of part_004 `combineFinemapping` send
over the channel: only datasets with a configured fine-mapping path
participate. -/
def gatherFinemapRows : List (InputConf × FinemapFile) → Except String (List InputFinemapRow)
  | [] => .ok []
  | (inputConf, file) :: rest =>
    if inputConf.finemapFilepath ≠ "" then do
      let xs ← streamFinemapFile inputConf file
      let ys ← gatherFinemapRows rest
      .ok (xs ++ ys)
    else gatherFinemapRows rest

/-- part_004 `combineFinemapping`: build the (tag, key) gathering map, then
walk the variant map and overwrite the PIP/CS fields of each entry that has
a matching fine-mapping row.  The Go function mutates the map in place; the
embedding returns the updated map. -/
def combineFinemapping (inputs : List (InputConf × FinemapFile))
    (variantStats : StatsMap) : Except String StatsMap := do
  let rows ← gatherFinemapRows inputs
  let gathering := rows.foldl addFmRow []
  .ok (variantStats.map (fun e =>
    (e.1, e.2.map (fun outputStats =>
      match fmLookup gathering outputStats.Tag e.1 with
      | some finemapStats => { outputStats with PIP := finemapStats.PIP, CS := finemapStats.CS }
      | none => outputStats))))

/-! ## Generic helpers -/

def isOkB {ε α : Type} : Except ε α → Bool
  | .ok _ => true
  | .error _ => false

instance {ε α : Type} [DecidableEq ε] [DecidableEq α] : DecidableEq (Except ε α) := fun x y =>
  match x, y with
  | .ok a, .ok b =>
    if h : a = b then .isTrue (by rw [h]) else .isFalse (fun hh => h (Except.ok.inj hh))
  | .error a, .error b =>
    if h : a = b then .isTrue (by rw [h]) else .isFalse (fun hh => h (Except.error.inj hh))
  | .ok _, .error _ => .isFalse (fun hh => Except.noConfusion hh)
  | .error _, .ok _ => .isFalse (fun hh => Except.noConfusion hh)

/-! ## Configuration validation theorems -/

theorem errorChain {c : Prop} [Decidable c] {s : String} {x : Except String Unit}
    (h : (if c then Except.error s else x) = .ok ()) : x = .ok () ∧ ¬ c := by
  by_cases hc : c
  · rw [if_pos hc] at h; exact Except.noConfusion h
  · rw [if_neg hc] at h; exact ⟨h, hc⟩

theorem validateInputConf_threshold {i : InputConf}
    (h : validateInputConf i = .ok ()) : i.pvalThreshold ≠ 0 := by
  rw [validateInputConf] at h
  exact (errorChain (errorChain (errorChain (errorChain (errorChain (errorChain (errorChain
    (errorChain (errorChain (errorChain (errorChain h).1).1).1).1).1).1).1).1).1).1).2

theorem validateInputs_threshold : ∀ l : List InputConf,
    validateInputs l = .ok () → ∀ i ∈ l, i.pvalThreshold ≠ 0 := by
  intro l
  induction l with
  | nil => intro _ i hi; simp at hi
  | cons a rest ih =>
    intro h i hi
    rw [validateInputs] at h
    cases ha : validateInputConf a with
    | error e => rw [ha] at h; simp [Bind.bind, Except.bind] at h
    | ok u =>
      rw [ha] at h
      simp only [Bind.bind, Except.bind] at h
      rcases List.mem_cons.mp hi with hi | hi
      · subst hi; cases u; exact validateInputConf_threshold ha
      · exact ih h i hi

/-- Claim C10: configuration loading treats a `pval_threshold` equal to 0
(the value a missing JSON key decodes to) as a fatal missing-field error,
so every configuration that passes `readConf` has a nonzero p-value
threshold for every dataset; a threshold of exactly 0 can never be
configured. -/
theorem readConf_pvalThreshold_nonzero (conf out : Conf)
    (h : readConf conf = .ok out) :
    out = conf ∧ ∀ i ∈ out.Inputs, i.pvalThreshold ≠ 0 := by
  unfold readConf at h
  split_ifs at h with hlen
  cases hv : validateInputs conf.Inputs with
  | error e => rw [hv] at h; simp [Bind.bind, Except.bind] at h
  | ok u =>
    rw [hv] at h
    cases ht : validateHetTests conf.HeterogeneityTests with
    | error e => rw [ht] at h; simp [Bind.bind, Except.bind] at h
    | ok u2 =>
      rw [ht] at h
      simp only [Bind.bind, Except.bind, pure, Except.pure, Except.ok.injEq] at h
      subst h
      exact ⟨rfl, validateInputs_threshold _ hv⟩

/-- A configuration that passes validation, used to instantiate theorems
with hypotheses. -/
def exConfA : InputConf :=
  { tag := "A", filepath := "a.tsv.gz"
    colChrom := "chrom", colPos := "pos", colRef := "ref", colAlt := "alt"
    colPVal := "pval", colBeta := "beta", colSEBeta := "sebeta", colAF := "af"
    pvalThreshold := mkRat 1 100, finemapFilepath := "" }

def exConfB : InputConf :=
  { tag := "B", filepath := "b.tsv.gz"
    colChrom := "chrom", colPos := "pos", colRef := "ref", colAlt := "alt"
    colPVal := "pval", colBeta := "beta", colSEBeta := "sebeta", colAF := "af"
    pvalThreshold := mkRat 1 1000, finemapFilepath := "fm_b.tsv" }

def exTest1 : HeterogeneityTestConf := { Tag := "t1", Compare := ["A", "B"] }

def exConf : Conf := { Inputs := [exConfA, exConfB], HeterogeneityTests := [exTest1] }

theorem readConf_pvalThreshold_nonzero_witness :
    readConf exConf = .ok exConf ∧ ∀ i ∈ exConf.Inputs, i.pvalThreshold ≠ 0 := by
  refine ⟨by decide, ?_⟩
  exact (readConf_pvalThreshold_nonzero exConf exConf (by decide)).2

/-! ## Selection scan theorems (Claim C1) -/

theorem mem_selectLoop_iff (threshold : ℚ) (rows : List InputSummaryStatsRow)
    (sel : List CPRA) (h : selectLoop threshold rows = .ok sel) (k : CPRA) :
    k ∈ sel ↔ ∃ row ∈ rows, row.cpra = k ∧
      ∃ p, parseFloat64NaN row.stats.PVal = .ok p ∧ goLTq p threshold = true := by
  induction rows generalizing sel with
  | nil =>
    rw [selectLoop] at h
    cases h
    simp
  | cons row rest ih =>
    rw [selectLoop] at h
    cases hp : parseFloat64NaN row.stats.PVal with
    | error e => rw [hp] at h; simp [Bind.bind, Except.bind] at h
    | ok p =>
      rw [hp] at h
      cases htail : selectLoop threshold rest with
      | error e => rw [htail] at h; simp [Bind.bind, Except.bind] at h
      | ok tail =>
        rw [htail] at h
        simp only [Bind.bind, Except.bind] at h
        by_cases hlt : goLTq p threshold = true
        · rw [if_pos hlt] at h
          cases h
          constructor
          · intro hk
            rcases List.mem_cons.mp hk with hk | hk
            · exact ⟨row, List.mem_cons_self _ _, hk.symm ▸ rfl, p, hp, hlt⟩
            · rcases (ih tail htail).mp hk with ⟨r, hr, hrest⟩
              exact ⟨r, List.mem_cons_of_mem _ hr, hrest⟩
          · rintro ⟨r, hr, hrk, q, hq, hqlt⟩
            rcases List.mem_cons.mp hr with hr | hr
            · subst hr; exact hrk ▸ List.mem_cons_self _ _
            · exact List.mem_cons_of_mem _ ((ih tail htail).mpr ⟨r, hr, hrk, q, hq, hqlt⟩)
        · rw [if_neg hlt] at h
          cases h
          rw [ih sel htail]
          constructor
          · rintro ⟨r, hr, hrest⟩
            exact ⟨r, List.mem_cons_of_mem _ hr, hrest⟩
          · rintro ⟨r, hr, hrk, q, hq, hqlt⟩
            rcases List.mem_cons.mp hr with hr | hr
            · subst hr
              rw [hp] at hq
              cases hq
              exact absurd hqlt hlt
            · exact ⟨r, hr, hrk, q, hq, hqlt⟩

theorem mem_streamVariantsAboveThreshold_iff (inputConf : InputConf)
    (file : SummaryFile) (sel : List CPRA)
    (h : streamVariantsAboveThreshold inputConf file = .ok sel) (k : CPRA) :
    k ∈ sel ↔ ∃ r ∈ file, r.1 = k ∧
      ∃ p, parseFloat64NaN r.2.PVal = .ok p ∧ goLTq p inputConf.pvalThreshold = true := by
  rw [mem_selectLoop_iff inputConf.pvalThreshold _ sel h k]
  constructor
  · rintro ⟨row, hrow, hrk, p, hp, hplt⟩
    rcases List.mem_map.mp hrow with ⟨r, hr, hrr⟩
    subst hrr
    exact ⟨r, hr, hrk, p, hp, hplt⟩
  · rintro ⟨r, hr, hrk, p, hp, hplt⟩
    exact ⟨{ Tag := inputConf.tag, cpra := r.1, stats := r.2 },
      List.mem_map.mpr ⟨r, hr, rfl⟩, hrk, p, hp, hplt⟩

/-- Claim C1: a variant key is in the set returned by the selection scan
iff at least one dataset contains a row with that key whose parsed p-value
is strictly below that dataset's own configured threshold.  The threshold
is exclusive (`goLTq` is strict less-than) and per-dataset, and the
right-hand side mentions no ordering of rows or datasets, so membership is
independent of processing order. -/
theorem scanForVariantSelection_mem_iff
    (inputs : List (InputConf × SummaryFile)) (sel : List CPRA)
    (h : scanForVariantSelection inputs = .ok sel) (k : CPRA) :
    k ∈ sel ↔ ∃ cf ∈ inputs, ∃ r ∈ cf.2, r.1 = k ∧
      ∃ p, parseFloat64NaN r.2.PVal = .ok p ∧ goLTq p cf.1.pvalThreshold = true := by
  induction inputs generalizing sel with
  | nil =>
    rw [scanForVariantSelection] at h
    cases h
    simp
  | cons cf rest ih =>
    rw [scanForVariantSelection] at h
    cases hx : streamVariantsAboveThreshold cf.1 cf.2 with
    | error e => rw [hx] at h; simp [Bind.bind, Except.bind] at h
    | ok xs =>
      rw [hx] at h
      cases hy : scanForVariantSelection rest with
      | error e => rw [hy] at h; simp [Bind.bind, Except.bind] at h
      | ok ys =>
        rw [hy] at h
        simp only [Bind.bind, Except.bind, Except.ok.injEq] at h
        subst h
        rw [List.mem_append]
        constructor
        · rintro (hk | hk)
          · rcases (mem_streamVariantsAboveThreshold_iff cf.1 cf.2 xs hx k).mp hk with
              ⟨r, hr, hrest⟩
            exact ⟨cf, List.mem_cons_self _ _, r, hr, hrest⟩
          · rcases (ih ys hy).mp hk with ⟨cg, hcg, hrest⟩
            exact ⟨cg, List.mem_cons_of_mem _ hcg, hrest⟩
        · rintro ⟨cg, hcg, r, hr, hrest⟩
          rcases List.mem_cons.mp hcg with hcg | hcg
          · subst hcg
            exact Or.inl ((mem_streamVariantsAboveThreshold_iff cg.1 cg.2 xs hx k).mpr
              ⟨r, hr, hrest⟩)
          · exact Or.inr ((ih ys hy).mpr ⟨cg, hcg, r, hr, hrest⟩)

def exK1 : CPRA := ⟨"1", "100", "A", "T"⟩

def exK2 : CPRA := ⟨"1", "200", "A", "G"⟩

def exStats1 : SummaryStats := ⟨"0.001", "0.5", "0.1", "0.3"⟩

def exStatsNA : SummaryStats := ⟨"NA", "0.4", "0.2", "0.3"⟩

def exFileA : SummaryFile := [(exK1, exStats1), (exK2, exStatsNA)]

theorem scanForVariantSelection_mem_iff_witness :
    scanForVariantSelection [(exConfA, exFileA)] = .ok [exK1] ∧ exK1 ∈ [exK1] := by
  refine ⟨by decide, ?_⟩
  exact (scanForVariantSelection_mem_iff [(exConfA, exFileA)] [exK1] (by decide) exK1).mpr
    (by refine ⟨(exConfA, exFileA), by simp, (exK1, exStats1), by simp [exFileA], rfl, ?_⟩
        exact ⟨.val (Rat.divInt 1 1000), by decide, by decide⟩)

/-! ## p-value parsing theorems (Claim C5) -/

/-- Claim C5: the literal text NA parses to NaN without error; NaN compares
below no threshold, so a row whose p-value field is NA contributes nothing
to the selection; and p-value parsing fails exactly when the text is
neither NA nor parseable as a float. -/
theorem parseFloat64NaN_NA_spec :
    parseFloat64NaN "NA" = .ok GoFloat.nan
    ∧ (∀ t : ℚ, goLTq GoFloat.nan t = false)
    ∧ (∀ (threshold : ℚ) (row : InputSummaryStatsRow) (rest : List InputSummaryStatsRow),
        row.stats.PVal = "NA" →
        selectLoop threshold (row :: rest) = selectLoop threshold rest)
    ∧ (∀ s : String, isOkB (parseFloat64NaN s) = false ↔
        (s ≠ "NA" ∧ isOkB (goStrconvParseFloat s) = false)) := by
  refine ⟨by decide, fun t => rfl, ?_, ?_⟩
  · intro threshold row rest hna
    rw [selectLoop, hna]
    show Bind.bind (parseFloat64NaN "NA") _ = _
    rw [show parseFloat64NaN "NA" = .ok GoFloat.nan from by decide]
    simp only [Bind.bind, Except.bind]
    cases htail : selectLoop threshold rest with
    | error e => rfl
    | ok tail => simp [goLTq]
  · intro s
    unfold parseFloat64NaN
    by_cases hs : s = "NA"
    · subst hs
      simp only [if_pos rfl]
      constructor
      · intro hfalse
        exact absurd hfalse (by decide)
      · rintro ⟨hne, _⟩
        exact absurd rfl hne
    · rw [if_neg hs]
      exact ⟨fun hf => ⟨hs, hf⟩, fun ⟨_, hf⟩ => hf⟩

def exNaRow : InputSummaryStatsRow := ⟨"A", exK2, exStatsNA⟩

theorem parseFloat64NaN_NA_spec_witness :
    selectLoop (mkRat 1 100) (exNaRow :: []) = selectLoop (mkRat 1 100) [] :=
  parseFloat64NaN_NA_spec.2.2.1 (mkRat 1 100) exNaRow [] rfl

/-! ## Statistics collector theorems (Claim C3) -/

theorem mapGet_addOutputStats (m : StatsMap) (row : InputSummaryStatsRow) (k : CPRA) :
    mapGet (addOutputStats m row) k =
      if k = row.cpra then mapGet m k ++ [rowToOutputStats row] else mapGet m k := by
  induction m with
  | nil =>
    by_cases hk : k = row.cpra
    · simp [addOutputStats, mapGet, hk]
    · have hk2 : ¬ row.cpra = k := fun h => hk h.symm
      simp [addOutputStats, mapGet, hk, hk2]
  | cons e rest ih =>
    rw [addOutputStats]
    by_cases he : e.1 = row.cpra
    · rw [if_pos he]
      by_cases hk : k = row.cpra
      · rw [if_pos hk]
        rw [mapGet, if_pos (he.trans hk.symm), mapGet, if_pos (he.trans hk.symm)]
      · rw [if_neg hk]
        have hek : ¬ (e.1 = k) := fun hh => hk ((hh.symm.trans he).symm ▸ rfl)
        rw [mapGet, if_neg hek, mapGet, if_neg hek]
    · rw [if_neg he]
      by_cases hek : e.1 = k
      · have hk : ¬ (k = row.cpra) := fun hh => he (hek.symm ▸ hh)
        rw [if_neg hk, mapGet, if_pos hek, mapGet, if_pos hek]
      · rw [mapGet, if_neg hek, ih, mapGet, if_neg hek]

theorem mapGet_foldl_addOutputStats (rows : List InputSummaryStatsRow)
    (m : StatsMap) (k : CPRA) :
    mapGet (rows.foldl addOutputStats m) k =
      mapGet m k ++ (rows.filter (fun r => decide (r.cpra = k))).map rowToOutputStats := by
  induction rows generalizing m with
  | nil => simp
  | cons row rest ih =>
    rw [List.foldl_cons, ih, mapGet_addOutputStats, List.filter_cons]
    by_cases hk : k = row.cpra
    · rw [if_pos hk, if_pos (show decide (row.cpra = k) = true by simp [hk])]
      simp
    · rw [if_neg hk,
        if_neg (show ¬ decide (row.cpra = k) = true by
          simp only [decide_eq_true_eq]
          exact fun h => hk h.symm)]

/-- The per-variant collection in the statistics collector's map is exactly
the list of channel rows with that key, in arrival order, converted to
`OutputStats`. -/
theorem findVariantStats_mapGet (inputs : List (InputConf × SummaryFile))
    (selectedVariants : List CPRA) (k : CPRA) :
    mapGet (findVariantStats inputs selectedVariants) k =
      ((collectSelectedRows inputs selectedVariants).filter
        (fun r => decide (r.cpra = k))).map rowToOutputStats := by
  rw [findVariantStats, mapGet_foldl_addOutputStats]
  rfl

def exDupFile : SummaryFile := [(exK1, exStats1), (exK1, exStats1)]

/-- Claim C3 as stated is false: an input file holding the same
sub-threshold variant line twice yields a per-variant collection with two
rows for the same dataset tag. -/
theorem findVariantStats_dup_counterexample :
    scanForVariantSelection [(exConfA, exDupFile)] = .ok [exK1, exK1]
    ∧ ¬ ((mapGet (findVariantStats [(exConfA, exDupFile)] [exK1, exK1]) exK1).countP
          (fun o => decide (o.Tag = "A")) ≤ 1) := by
  constructor
  · decide
  · decide

theorem mem_streamRowsFromSelection_tag {r : InputSummaryStatsRow}
    {inputConf : InputConf} {file : SummaryFile} {selectedVariants : List CPRA}
    (h : r ∈ streamRowsFromSelection inputConf file selectedVariants) :
    r.Tag = inputConf.tag := by
  rw [streamRowsFromSelection] at h
  have hm := List.mem_of_mem_filter h
  rcases List.mem_map.mp hm with ⟨x, _, hx⟩
  rw [← hx]

theorem countP_streamRowsFromSelection (inputConf : InputConf) (file : SummaryFile)
    (selectedVariants : List CPRA) (tag : String) (k : CPRA) :
    (streamRowsFromSelection inputConf file selectedVariants).countP
        (fun r => decide (r.Tag = tag) && decide (r.cpra = k))
      ≤ if inputConf.tag = tag then file.countP (fun r => decide (r.1 = k)) else 0 := by
  by_cases htag : inputConf.tag = tag
  · rw [if_pos htag]
    calc (streamRowsFromSelection inputConf file selectedVariants).countP
          (fun r => decide (r.Tag = tag) && decide (r.cpra = k))
        ≤ (streamSummaryStatsFile inputConf file).countP
          (fun r => decide (r.Tag = tag) && decide (r.cpra = k)) := by
          rw [streamRowsFromSelection, List.countP_filter]
          exact List.countP_mono_left (fun x _ hx => by
            simp only [Bool.and_eq_true] at hx ⊢
            exact ⟨hx.1.1, hx.1.2⟩)
      _ ≤ file.countP (fun r => decide (r.1 = k)) := by
          rw [streamSummaryStatsFile, List.countP_map]
          exact List.countP_mono_left (fun x _ hx => by
            simp only [Function.comp, Bool.and_eq_true, decide_eq_true_eq] at hx ⊢
            exact hx.2)
  · rw [if_neg htag]
    have : ∀ r ∈ streamRowsFromSelection inputConf file selectedVariants,
        ¬ ((fun r => decide (r.Tag = tag) && decide (r.cpra = k)) r = true) := by
      intro r hr hcontra
      simp only [Bool.and_eq_true, decide_eq_true_eq] at hcontra
      exact htag ((mem_streamRowsFromSelection_tag hr) ▸ hcontra.1)
    exact Nat.le_of_eq (List.countP_eq_zero.mpr this)

theorem countP_collectSelectedRows_zero (inputs : List (InputConf × SummaryFile))
    (selectedVariants : List CPRA) (tag : String) (k : CPRA)
    (hne : ∀ cf ∈ inputs, cf.1.tag ≠ tag) :
    (collectSelectedRows inputs selectedVariants).countP
      (fun r => decide (r.Tag = tag) && decide (r.cpra = k)) = 0 := by
  induction inputs with
  | nil => rfl
  | cons cf rest ih =>
    rw [collectSelectedRows] at ih ⊢
    rw [List.map_cons, List.flatten_cons, List.countP_append]
    have h0 : (streamRowsFromSelection cf.1 cf.2 selectedVariants).countP
        (fun r => decide (r.Tag = tag) && decide (r.cpra = k)) = 0 := by
      apply List.countP_eq_zero.mpr
      intro r hr hcontra
      simp only [Bool.and_eq_true, decide_eq_true_eq] at hcontra
      exact hne cf (List.mem_cons_self _ _) ((mem_streamRowsFromSelection_tag hr) ▸ hcontra.1)
    rw [h0, ih (fun cg hcg => hne cg (List.mem_cons_of_mem _ hcg))]

theorem countP_collectSelectedRows (inputs : List (InputConf × SummaryFile))
    (selectedVariants : List CPRA) (tag : String) (k : CPRA)
    (hNodup : (inputs.map (fun cf => cf.1.tag)).Nodup)
    (huniq : ∀ cf ∈ inputs, ∀ kk : CPRA,
      cf.2.countP (fun r => decide (r.1 = kk)) ≤ 1) :
    (collectSelectedRows inputs selectedVariants).countP
      (fun r => decide (r.Tag = tag) && decide (r.cpra = k)) ≤ 1 := by
  induction inputs with
  | nil => exact Nat.zero_le 1
  | cons cf rest ih =>
    rw [collectSelectedRows, List.map_cons, List.flatten_cons, List.countP_append]
    rw [List.map_cons, List.nodup_cons] at hNodup
    by_cases htag : cf.1.tag = tag
    · have hrest : (collectSelectedRows rest selectedVariants).countP
          (fun r => decide (r.Tag = tag) && decide (r.cpra = k)) = 0 := by
        apply countP_collectSelectedRows_zero
        intro cg hcg hcontra
        exact hNodup.1 (htag ▸ hcontra ▸ List.mem_map.mpr ⟨cg, hcg, rfl⟩)
      have hhead := countP_streamRowsFromSelection cf.1 cf.2 selectedVariants tag k
      rw [if_pos htag] at hhead
      rw [collectSelectedRows] at hrest
      rw [hrest, Nat.add_zero]
      exact le_trans hhead (huniq cf (List.mem_cons_self _ _) k)
    · have hhead := countP_streamRowsFromSelection cf.1 cf.2 selectedVariants tag k
      rw [if_neg htag] at hhead
      rw [Nat.le_zero.mp hhead, Nat.zero_add]
      exact ih hNodup.2 (fun cg hcg => huniq cg (List.mem_cons_of_mem _ hcg))

/-- Claim C3 amended: provided the dataset tags are pairwise distinct and
each dataset's input contains at most one row per variant key, every
per-variant collection in the statistics collector's map contains at most
one row per dataset tag.  (The unamended claim fails when a file repeats a
variant line; see the counterexample.) -/
theorem findVariantStats_at_most_one_row_per_tag
    (inputs : List (InputConf × SummaryFile)) (selectedVariants : List CPRA)
    (hNodup : (inputs.map (fun cf => cf.1.tag)).Nodup)
    (huniq : ∀ cf ∈ inputs, ∀ kk : CPRA,
      cf.2.countP (fun r => decide (r.1 = kk)) ≤ 1)
    (k : CPRA) (tag : String) :
    (mapGet (findVariantStats inputs selectedVariants) k).countP
      (fun o => decide (o.Tag = tag)) ≤ 1 := by
  rw [findVariantStats_mapGet, List.countP_map, List.countP_filter]
  have hcongr : (collectSelectedRows inputs selectedVariants).countP
      (fun r => ((fun o => decide (o.Tag = tag)) ∘ rowToOutputStats) r
        && decide (r.cpra = k))
    = (collectSelectedRows inputs selectedVariants).countP
      (fun r => decide (r.Tag = tag) && decide (r.cpra = k)) := by
    apply List.countP_congr
    intro r _
    simp [rowToOutputStats]
  rw [hcongr]
  exact countP_collectSelectedRows inputs selectedVariants tag k hNodup huniq

theorem countP_key_le_one {file : SummaryFile}
    (hn : (file.map Prod.fst).Nodup) (kk : CPRA) :
    file.countP (fun r => decide (r.1 = kk)) ≤ 1 := by
  have hcount := List.nodup_iff_count_le_one.mp hn kk
  rw [List.count_eq_countP, List.countP_map] at hcount
  refine le_trans (le_of_eq (List.countP_congr ?_)) hcount
  intro x _
  simp [Function.comp]

theorem findVariantStats_at_most_one_row_per_tag_witness :
    (mapGet (findVariantStats [(exConfA, exFileA)] [exK1]) exK1).countP
      (fun o => decide (o.Tag = "A")) ≤ 1 :=
  findVariantStats_at_most_one_row_per_tag [(exConfA, exFileA)] [exK1]
    (by decide)
    (by
      intro cf hcf kk
      have hcf2 : cf = (exConfA, exFileA) := by simpa using hcf
      subst hcf2
      exact countP_key_le_one (by decide) kk)
    exK1 "A"

/-! ## Fine-mapping merge theorems (Claims C4, C6) -/

def exFmConf : InputConf :=
  { tag := "A", filepath := "a.tsv.gz"
    colChrom := "chrom", colPos := "pos", colRef := "ref", colAlt := "alt"
    colPVal := "pval", colBeta := "beta", colSEBeta := "sebeta", colAF := "af"
    pvalThreshold := mkRat 1 100, finemapFilepath := "fm_a.tsv" }

/-- Claim C4 as stated is false on the chromosome-prefix half: the
fine-mapping key parser splits the composite key into exactly four parts
but strips no prefix, so a key whose chromosome part is written with a
non-numeric prefix keeps it verbatim and cannot match a bare-chromosome
variant key. -/
theorem streamFinemapFile_no_prefix_strip_counterexample :
    streamFinemapFile exFmConf [("chr1:100:A:T", "0.9", "1")] =
      .ok [{ Tag := "A", cpra := ⟨"chr1", "100", "A", "T"⟩, PIP := "0.9", CS := "1" }]
    ∧ ("chr1" : String) ≠ "1" := by
  constructor
  · decide
  · decide

/-- Claim C4 amended: each fine-mapping key is split on `:`; a key that
does not split into exactly four parts is a fatal parsing error (the whole
stream errors), and on success the four parts are used verbatim — in
particular the chromosome part is not normalized, so it matches the
variant keys used elsewhere only if written identically. -/
theorem streamFinemapFile_split_spec (inputConf : InputConf) (file : FinemapFile) :
    (isOkB (streamFinemapFile inputConf file) = true ↔
      ∀ r ∈ file, (goStringsSplit r.1 ':').length = 4)
    ∧ (∀ rows, streamFinemapFile inputConf file = .ok rows →
        rows.length = file.length ∧
        ∀ i (hi : i < file.length) (hi2 : i < rows.length)
          (chrom pos ref alt : String),
          (goStringsSplit (file.get ⟨i, hi⟩).1 ':') = [chrom, pos, ref, alt] →
          rows.get ⟨i, hi2⟩ =
            { Tag := inputConf.tag, cpra := ⟨chrom, pos, ref, alt⟩,
              PIP := (file.get ⟨i, hi⟩).2.1, CS := (file.get ⟨i, hi⟩).2.2 }) := by
  induction file with
  | nil =>
    refine ⟨by constructor <;> intro <;> simp_all [streamFinemapFile, isOkB], ?_⟩
    intro rows h
    rw [streamFinemapFile] at h
    cases h
    exact ⟨rfl, fun i hi => by simp at hi⟩
  | cons entry rest ih =>
    obtain ⟨v, pip, cs⟩ := entry
    constructor
    · rw [streamFinemapFile]
      constructor
      · intro hok r hr
        rcases List.mem_cons.mp hr with hr | hr
        · subst hr
          cases hs : goStringsSplit v ':' with
          | nil => rw [hs] at hok; exact absurd hok (by simp [isOkB])
          | cons a as =>
            rw [hs] at hok
            match as, hok with
            | [b, c, d], _ => rfl
            | [], hok => exact absurd hok (by simp [isOkB])
            | [b], hok => exact absurd hok (by simp [isOkB])
            | [b, c], hok => exact absurd hok (by simp [isOkB])
            | b :: c :: d :: e :: fs, hok => exact absurd hok (by simp [isOkB])
        · cases hs : goStringsSplit v ':' with
          | nil => rw [hs] at hok; exact absurd hok (by simp [isOkB])
          | cons a as =>
            rw [hs] at hok
            match as, hok with
            | [b, c, d], hok =>
              cases htail : streamFinemapFile inputConf rest with
              | error e => rw [htail] at hok; simp [Bind.bind, Except.bind, isOkB] at hok
              | ok tail =>
                have : isOkB (streamFinemapFile inputConf rest) = true := by
                  rw [htail]; rfl
                exact (ih.1.mp this) r hr
            | [], hok => exact absurd hok (by simp [isOkB])
            | [b], hok => exact absurd hok (by simp [isOkB])
            | [b, c], hok => exact absurd hok (by simp [isOkB])
            | b :: c :: d :: e :: fs, hok => exact absurd hok (by simp [isOkB])
      · intro hall
        have h4 := hall (v, pip, cs) (List.mem_cons_self _ _)
        simp only at h4
        cases hs : goStringsSplit v ':' with
        | nil => rw [hs] at h4; simp at h4
        | cons a as =>
          rw [hs] at h4
          match as, h4 with
          | [b, c, d], _ =>
            have hrest : isOkB (streamFinemapFile inputConf rest) = true :=
              ih.1.mpr (fun r hr => hall r (List.mem_cons_of_mem _ hr))
            cases htail : streamFinemapFile inputConf rest with
            | error e => rw [htail] at hrest; exact absurd hrest (by simp [isOkB])
            | ok tail => rfl
    · intro rows h
      rw [streamFinemapFile] at h
      cases hs : goStringsSplit v ':' with
      | nil => rw [hs] at h; exact absurd h (by simp)
      | cons a as =>
        rw [hs] at h
        match as, h with
        | [b, c, d], h =>
          cases htail : streamFinemapFile inputConf rest with
          | error e => rw [htail] at h; simp [Bind.bind, Except.bind] at h
          | ok tail =>
            rw [htail] at h
            simp only [Bind.bind, Except.bind, Except.ok.injEq] at h
            subst h
            refine ⟨by simpa using (ih.2 tail htail).1, ?_⟩
            intro i hi hi2 chrom pos ref alt hsplit
            match i with
            | 0 =>
              simp only [List.get] at hsplit ⊢
              rw [hs] at hsplit
              cases hsplit
              rfl
            | Nat.succ j =>
              simp only [List.get] at hsplit ⊢
              exact (ih.2 tail htail).2 j (Nat.lt_of_succ_lt_succ hi)
                (Nat.lt_of_succ_lt_succ hi2) chrom pos ref alt hsplit
        | [], h => exact absurd h (by simp)
        | [b], h => exact absurd h (by simp)
        | [b, c], h => exact absurd h (by simp)
        | b :: c :: d :: e :: fs, h => exact absurd h (by simp)

theorem streamFinemapFile_split_spec_witness :
    isOkB (streamFinemapFile exFmConf [("1:100:A:T", "0.9", "1")]) = true :=
  (streamFinemapFile_split_spec exFmConf [("1:100:A:T", "0.9", "1")]).1.mpr
    (by decide)

/-- Claim C6: the fine-mapping merge is a frame-respecting update: the
key list of the variant map is unchanged (no key added or removed), every
per-variant collection keeps its length (no entry added or removed), the
tag, p-value, beta, standard-error and allele-frequency fields of every
entry are unchanged, and an entry whose (tag, key) pair has no gathered
fine-mapping row keeps its PIP and CS as well — all regardless of the
fine-mapping files' contents. -/
theorem combineFinemapping_frame (inputs : List (InputConf × FinemapFile))
    (m m2 : StatsMap) (h : combineFinemapping inputs m = .ok m2) :
    m2.map Prod.fst = m.map Prod.fst
    ∧ ∀ i (hi : i < m.length) (hi2 : i < m2.length),
        (m2.get ⟨i, hi2⟩).2.length = (m.get ⟨i, hi⟩).2.length
        ∧ ∀ j (hj : j < (m.get ⟨i, hi⟩).2.length)
            (hj2 : j < (m2.get ⟨i, hi2⟩).2.length),
            ((m2.get ⟨i, hi2⟩).2.get ⟨j, hj2⟩).Tag
              = ((m.get ⟨i, hi⟩).2.get ⟨j, hj⟩).Tag
            ∧ ((m2.get ⟨i, hi2⟩).2.get ⟨j, hj2⟩).PVal
              = ((m.get ⟨i, hi⟩).2.get ⟨j, hj⟩).PVal
            ∧ ((m2.get ⟨i, hi2⟩).2.get ⟨j, hj2⟩).Beta
              = ((m.get ⟨i, hi⟩).2.get ⟨j, hj⟩).Beta
            ∧ ((m2.get ⟨i, hi2⟩).2.get ⟨j, hj2⟩).SEBeta
              = ((m.get ⟨i, hi⟩).2.get ⟨j, hj⟩).SEBeta
            ∧ ((m2.get ⟨i, hi2⟩).2.get ⟨j, hj2⟩).AF
              = ((m.get ⟨i, hi⟩).2.get ⟨j, hj⟩).AF
            ∧ ∀ rows, gatherFinemapRows inputs = .ok rows →
                fmLookup (rows.foldl addFmRow [])
                    ((m.get ⟨i, hi⟩).2.get ⟨j, hj⟩).Tag (m.get ⟨i, hi⟩).1 = none →
                ((m2.get ⟨i, hi2⟩).2.get ⟨j, hj2⟩).PIP
                  = ((m.get ⟨i, hi⟩).2.get ⟨j, hj⟩).PIP
                ∧ ((m2.get ⟨i, hi2⟩).2.get ⟨j, hj2⟩).CS
                  = ((m.get ⟨i, hi⟩).2.get ⟨j, hj⟩).CS := by
  rw [combineFinemapping] at h
  cases hrows : gatherFinemapRows inputs with
  | error e => rw [hrows] at h; simp [Bind.bind, Except.bind] at h
  | ok rows =>
    rw [hrows] at h
    simp only [Bind.bind, Except.bind, Except.ok.injEq] at h
    subst h
    constructor
    · rw [List.map_map]
      exact List.map_congr_left (fun e _ => rfl)
    · intro i hi hi2
      have hget : ∀ hk : i < (List.map (fun e => (e.1, List.map (fun outputStats =>
          match fmLookup (List.foldl addFmRow [] rows) outputStats.Tag e.1 with
          | some finemapStats =>
            { outputStats with PIP := finemapStats.PIP, CS := finemapStats.CS }
          | none => outputStats) e.2)) m).length,
          (List.map (fun e => (e.1, List.map (fun outputStats =>
            match fmLookup (List.foldl addFmRow [] rows) outputStats.Tag e.1 with
            | some finemapStats =>
              { outputStats with PIP := finemapStats.PIP, CS := finemapStats.CS }
            | none => outputStats) e.2)) m).get ⟨i, hk⟩
          = ((m.get ⟨i, hi⟩).1, List.map (fun outputStats =>
              match fmLookup (List.foldl addFmRow [] rows) outputStats.Tag
                  (m.get ⟨i, hi⟩).1 with
              | some finemapStats =>
                { outputStats with PIP := finemapStats.PIP, CS := finemapStats.CS }
              | none => outputStats) (m.get ⟨i, hi⟩).2) := by
        intro hk
        simp [List.get_eq_getElem, List.getElem_map]
      rw [hget hi2]
      refine ⟨by simp, ?_⟩
      intro j hj hj2
      have hj2m : j < (List.map (fun outputStats =>
          match fmLookup (List.foldl addFmRow [] rows) outputStats.Tag
              (m.get ⟨i, hi⟩).1 with
          | some finemapStats =>
            { outputStats with PIP := finemapStats.PIP, CS := finemapStats.CS }
          | none => outputStats) (m.get ⟨i, hi⟩).2).length := by
        simpa using hj
      have hgetj : (List.map (fun outputStats =>
          match fmLookup (List.foldl addFmRow [] rows) outputStats.Tag
              (m.get ⟨i, hi⟩).1 with
          | some finemapStats =>
            { outputStats with PIP := finemapStats.PIP, CS := finemapStats.CS }
          | none => outputStats) (m.get ⟨i, hi⟩).2).get ⟨j, hj2m⟩
          = match fmLookup (List.foldl addFmRow [] rows)
              ((m.get ⟨i, hi⟩).2.get ⟨j, hj⟩).Tag (m.get ⟨i, hi⟩).1 with
            | some finemapStats =>
              { (m.get ⟨i, hi⟩).2.get ⟨j, hj⟩ with
                  PIP := finemapStats.PIP, CS := finemapStats.CS }
            | none => (m.get ⟨i, hi⟩).2.get ⟨j, hj⟩ := by
        simp [List.get_eq_getElem, List.getElem_map]
      simp only [List.get_eq_getElem] at hgetj ⊢
      rw [hgetj]
      cases hfm : fmLookup (List.foldl addFmRow [] rows)
          ((m.get ⟨i, hi⟩).2.get ⟨j, hj⟩).Tag (m.get ⟨i, hi⟩).1 with
      | some fmStats =>
        refine ⟨rfl, rfl, rfl, rfl, rfl, ?_⟩
        intro rows2 hrows2 hnone
        cases hrows2
        simp only [List.get_eq_getElem] at hfm
        rw [hfm] at hnone
        exact Option.noConfusion hnone
      | none =>
        exact ⟨rfl, rfl, rfl, rfl, rfl, fun _ _ _ => ⟨rfl, rfl⟩⟩

def exStatsMap1 : StatsMap :=
  [(exK1, [{ Tag := "A", PVal := "0.001", Beta := "0.5", SEBeta := "0.1",
             AF := "0.3", PIP := "NA", CS := "NA" }])]

def exStatsMap2 : StatsMap :=
  [(exK1, [{ Tag := "A", PVal := "0.001", Beta := "0.5", SEBeta := "0.1",
             AF := "0.3", PIP := "0.9", CS := "1" }])]

theorem combineFinemapping_frame_witness :
    combineFinemapping [(exFmConf, [("1:100:A:T", "0.9", "1")])] exStatsMap1
      = .ok exStatsMap2
    ∧ exStatsMap2.map Prod.fst = exStatsMap1.map Prod.fst := by
  refine ⟨by decide, ?_⟩
  exact (combineFinemapping_frame [(exFmConf, [("1:100:A:T", "0.9", "1")])]
    exStatsMap1 exStatsMap2 (by decide)).1

/-! ## Heterogeneity engine (Claim C7)

The fixed-effect inverse-variance meta-analysis as written inline in the
older `writeMMPOutput` (mmpio.go lines 429-452 / the second revision of
output.go): inverse-variance weights, pooled beta, pooled standard error,
two-sided p-value and Cochran's Q heterogeneity p-value.  `math.Sqrt`,
the standard normal survival function and the chi-squared(df=1) CDF are
library calls, taken as parameters; the remaining arithmetic is exact. -/

/-- Go `invVar[i] = 1 / (sebeta[i] * sebeta[i])`. -/
def invVar (sebeta : List ℚ) : List ℚ :=
  sebeta.map (fun s => 1 / (s * s))

/-- Go `effInvVar[i] = beta[i] * invVar[i]`. -/
def effInvVar (beta iv : List ℚ) : List ℚ :=
  List.zipWith (fun b w => b * w) beta iv

/-- Go `metaBeta := sum(effInvVar) / sum(invVar)`. -/
def metaBeta (beta sebeta : List ℚ) : ℚ :=
  sum (effInvVar beta (invVar sebeta)) / sum (invVar sebeta)

/-- Go `metaSe := math.Sqrt(1 / sum(invVar))`. -/
def metaSe (sqrtF : ℚ → ℚ) (sebeta : List ℚ) : ℚ :=
  sqrtF (1 / sum (invVar sebeta))

/-- Go `metaPVal := 2 * distuv.UnitNormal.Survival(|sum(effInvVar)| / math.Sqrt(sum(invVar)))`. -/
def metaPVal (survivalF sqrtF : ℚ → ℚ) (beta sebeta : List ℚ) : ℚ :=
  2 * survivalF (|sum (effInvVar beta (invVar sebeta))| / sqrtF (sum (invVar sebeta)))

/-- Go `betaDev[i] = invVar[i] * (beta[i] - metaBeta) * (beta[i] - metaBeta)`. -/
def betaDev (beta sebeta : List ℚ) : List ℚ :=
  List.zipWith
    (fun b w => w * (b - metaBeta beta sebeta) * (b - metaBeta beta sebeta))
    beta (invVar sebeta)

/-- Go `metaHetPVal := 1 - distuv.ChiSquared{K: 1}.CDF(sum(betaDev))`:
one minus the chi-squared(df=1) CDF at Cochran's Q. -/
def metaHetPVal (chiSquaredCDF : ℚ → ℚ) (beta sebeta : List ℚ) : ℚ :=
  1 - chiSquaredCDF (sum (betaDev beta sebeta))

/-- Claim C7: on betas [1, 3] with standard errors [1, 1] the weights are
[1, 1], the pooled beta is exactly 2, the pooled standard error is the
square root of exactly 1/2, Cochran's Q is exactly 2, and the
heterogeneity p-value is one minus the chi-squared(df=1) CDF at Q; in
general Q is the weighted sum of squared deviations of each beta from the
pooled beta. -/
theorem heterogeneity_engine_spec :
    (∀ sqrtF chiSquaredCDF : ℚ → ℚ,
      invVar [1, 1] = [1, 1]
      ∧ metaBeta [1, 3] [1, 1] = 2
      ∧ metaSe sqrtF [1, 1] = sqrtF (1/2)
      ∧ sum (betaDev [1, 3] [1, 1]) = 2
      ∧ metaHetPVal chiSquaredCDF [1, 3] [1, 1] = 1 - chiSquaredCDF 2)
    ∧ ∀ beta sebeta : List ℚ,
        sum (betaDev beta sebeta)
          = sum ((beta.zip (invVar sebeta)).map
              (fun p => p.2 * (p.1 - metaBeta beta sebeta) ^ 2)) := by
  have hInv : invVar [(1 : ℚ), 1] = [1, 1] := by
    simp [invVar]
  have hMB : metaBeta [(1 : ℚ), 3] [1, 1] = 2 := by
    rw [metaBeta, hInv]
    simp [effInvVar, sum]
    norm_num
  have hQ : sum (betaDev [(1 : ℚ), 3] [1, 1]) = 2 := by
    rw [betaDev, hMB, hInv]
    simp [sum]
    norm_num
  refine ⟨fun sqrtF chiSquaredCDF => ⟨hInv, hMB, ?_, hQ, ?_⟩, ?_⟩
  · rw [metaSe, hInv]
    norm_num [sum]
  · rw [metaHetPVal, hQ]
  · intro beta sebeta
    rw [betaDev]
    congr 1
    rw [show (fun p : ℚ × ℚ => p.2 * (p.1 - metaBeta beta sebeta) ^ 2)
          = Function.uncurry
              (fun b w => w * (b - metaBeta beta sebeta) ^ 2) from rfl,
      List.map_uncurry_zip_eq_zipWith]
    have hfun : (fun b w => w * (b - metaBeta beta sebeta) ^ 2)
        = fun b w => w * (b - metaBeta beta sebeta) * (b - metaBeta beta sebeta) := by
      funext b w
      ring
    rw [hfun]

/-! ## Meta statistics for the output (output.go, current revision) -/

/-- output.go `OutputMetaStats`: the four meta columns of one
heterogeneity test, as text. -/
structure OutputMetaStats where
  Beta : String
  SEBeta : String
  PVal : String
  HetPVal : String
deriving DecidableEq

/-- The injection of a parsed float into the exact rationals used by the
heterogeneity arithmetic; NaN is mapped to 0, which is only reachable for
inputs the spec excludes (the engine assumes non-missing, finite inputs). -/
def GoFloat.toQ : GoFloat → ℚ
  | .nan => 0
  | .val q => q

/-- Modelled from the spec: `ComputeHeterogeneityTest` is called by the
current output.go but its body (with the `OutputMetaStats` formatting) is
not among the provided sources.  It is modelled from spec section 4.5:
pooled beta, pooled standard error, two-sided p-value and Cochran's Q
heterogeneity p-value by fixed-effect inverse-variance weighting, with the
square root, standard normal survival function, chi-squared(df=1) CDF and
float formatting taken as parameters. -/
def ComputeHeterogeneityTest (survivalF chiSquaredCDF sqrtF : ℚ → ℚ)
    (fmtF : ℚ → String) (betas sebetas : List GoFloat) : OutputMetaStats :=
  let beta := betas.map GoFloat.toQ
  let sebeta := sebetas.map GoFloat.toQ
  { Beta := fmtF (metaBeta beta sebeta)
    SEBeta := fmtF (metaSe sqrtF sebeta)
    PVal := fmtF (metaPVal survivalF sqrtF beta sebeta)
    HetPVal := fmtF (metaHetPVal chiSquaredCDF beta sebeta) }

/-- output.go: the set of tags whose row for this variant has numeric
(non-NA) beta and standard error. -/
def tagsWithStats (multipleStats : List OutputStats) : List String :=
  (multipleStats.filter
    (fun stats => !(stats.Beta == "NA") && !(stats.SEBeta == "NA"))).map
    (fun stats => stats.Tag)

/-- output.go: a heterogeneity test has the necessary data iff every tag
in its compare list is in `tagsWithStats`. -/
def hasNecessaryData (test : HeterogeneityTestConf)
    (multipleStats : List OutputStats) : Bool :=
  test.Compare.all (fun tagCompare => decide (tagCompare ∈ tagsWithStats multipleStats))

/-- output.go: the beta/sebeta collection loop of the meta-stats
computation — parse (fatally on bad text) the beta and standard error of
every row whose tag is named in the compare list, in row order. -/
def collectBetasSebetas (compare : List String) :
    List OutputStats → Except String (List GoFloat × List GoFloat)
  | [] => .ok ([], [])
  | stats :: rest =>
    if contains compare stats.Tag then do
      let beta ← parseFloat64NaN stats.Beta
      let sebeta ← parseFloat64NaN stats.SEBeta
      let (betas, sebetas) ← collectBetasSebetas compare rest
      .ok (beta :: betas, sebeta :: sebetas)
    else collectBetasSebetas compare rest

/-- output.go: the per-test branch of `writeMMPOutput` — compute the meta
statistics from the named datasets when every named tag has usable data,
otherwise emit the four not-computed markers. -/
def metaStatsForTest (survivalF chiSquaredCDF sqrtF : ℚ → ℚ) (fmtF : ℚ → String)
    (test : HeterogeneityTestConf) (multipleStats : List OutputStats) :
    Except String OutputMetaStats :=
  if hasNecessaryData test multipleStats then do
    let (betas, sebetas) ← collectBetasSebetas test.Compare multipleStats
    .ok (ComputeHeterogeneityTest survivalF chiSquaredCDF sqrtF fmtF betas sebetas)
  else
    .ok { Beta := "NA", SEBeta := "NA", PVal := "NA", HetPVal := "NA" }

theorem mem_tagsWithStats {t : String} {multipleStats : List OutputStats} :
    t ∈ tagsWithStats multipleStats ↔
      ∃ s ∈ multipleStats, s.Tag = t ∧ s.Beta ≠ "NA" ∧ s.SEBeta ≠ "NA" := by
  rw [tagsWithStats]
  constructor
  · intro h
    rcases List.mem_map.mp h with ⟨s, hs, hst⟩
    rcases List.mem_filter.mp hs with ⟨hmem, hcond⟩
    simp only [Bool.and_eq_true, Bool.not_eq_true', beq_eq_false_iff_ne] at hcond
    exact ⟨s, hmem, hst, hcond.1, hcond.2⟩
  · rintro ⟨s, hmem, hst, hb, hse⟩
    refine List.mem_map.mpr ⟨s, List.mem_filter.mpr ⟨hmem, ?_⟩, hst⟩
    simp only [Bool.and_eq_true, Bool.not_eq_true', beq_eq_false_iff_ne]
    exact ⟨hb, hse⟩

theorem hasNecessaryData_eq_false_iff
    (test : HeterogeneityTestConf) (multipleStats : List OutputStats)
    (hUnique : ∀ s1 ∈ multipleStats, ∀ s2 ∈ multipleStats,
      s1.Tag = s2.Tag → s1 = s2) :
    hasNecessaryData test multipleStats = false ↔
      ∃ t ∈ test.Compare,
        (¬ ∃ s ∈ multipleStats, s.Tag = t)
        ∨ (∃ s ∈ multipleStats, s.Tag = t ∧ (s.Beta = "NA" ∨ s.SEBeta = "NA")) := by
  rw [hasNecessaryData]
  rw [show (test.Compare.all
        (fun tagCompare => decide (tagCompare ∈ tagsWithStats multipleStats)) = false)
      ↔ ¬ (test.Compare.all
        (fun tagCompare => decide (tagCompare ∈ tagsWithStats multipleStats)) = true)
    from by simp]
  rw [List.all_eq_true]
  constructor
  · intro h
    rcases not_forall.mp h with ⟨t, ht⟩
    push_neg at ht
    obtain ⟨htmem, htws0⟩ := ht
    have htws : ¬ (t ∈ tagsWithStats multipleStats) := by simpa using htws0
    rw [mem_tagsWithStats] at htws
    refine ⟨t, htmem, ?_⟩
    by_cases hrow : ∃ s ∈ multipleStats, s.Tag = t
    · rcases hrow with ⟨s, hs, hst⟩
      right
      refine ⟨s, hs, hst, ?_⟩
      by_contra hna
      push_neg at hna
      exact htws ⟨s, hs, hst, hna.1, hna.2⟩
    · exact Or.inl hrow
  · rintro ⟨t, htmem, hmiss⟩
    intro hall
    have := hall t htmem
    simp only [decide_eq_true_eq] at this
    rw [mem_tagsWithStats] at this
    rcases this with ⟨s, hs, hst, hb, hse⟩
    rcases hmiss with hnone | ⟨s2, hs2, hst2, hna⟩
    · exact hnone ⟨s, hs, hst⟩
    · have : s2 = s := hUnique s2 hs2 s hs (hst2.trans hst.symm)
      subst this
      rcases hna with hna | hna
      · exact hb hna
      · exact hse hna

theorem collectBetasSebetas_spec (compare : List String) :
    ∀ (multipleStats : List OutputStats) (betas sebetas : List GoFloat),
      collectBetasSebetas compare multipleStats = .ok (betas, sebetas) →
      betas.length
          = (multipleStats.filter (fun s => contains compare s.Tag)).length
      ∧ sebetas.length
          = (multipleStats.filter (fun s => contains compare s.Tag)).length
      ∧ ∀ i (hb : i < betas.length) (hs2 : i < sebetas.length)
          (hf : i < (multipleStats.filter (fun s => contains compare s.Tag)).length),
          parseFloat64NaN
              (((multipleStats.filter (fun s => contains compare s.Tag)).get
                ⟨i, hf⟩).Beta) = .ok (betas.get ⟨i, hb⟩)
          ∧ parseFloat64NaN
              (((multipleStats.filter (fun s => contains compare s.Tag)).get
                ⟨i, hf⟩).SEBeta) = .ok (sebetas.get ⟨i, hs2⟩) := by
  intro multipleStats
  induction multipleStats with
  | nil =>
    intro betas sebetas h
    rw [collectBetasSebetas] at h
    cases h
    exact ⟨rfl, rfl, fun i hb => by simp at hb⟩
  | cons stats rest ih =>
    intro betas sebetas h
    rw [collectBetasSebetas] at h
    by_cases hc : contains compare stats.Tag = true
    · rw [if_pos hc] at h
      cases hbeta : parseFloat64NaN stats.Beta with
      | error e => rw [hbeta] at h; simp [Bind.bind, Except.bind] at h
      | ok beta =>
        rw [hbeta] at h
        cases hsebeta : parseFloat64NaN stats.SEBeta with
        | error e =>
          rw [hsebeta] at h; simp [Bind.bind, Except.bind] at h
        | ok sebeta =>
          rw [hsebeta] at h
          cases hrest : collectBetasSebetas compare rest with
          | error e => rw [hrest] at h; simp [Bind.bind, Except.bind] at h
          | ok p =>
            obtain ⟨bs, ses⟩ := p
            rw [hrest] at h
            simp only [Bind.bind, Except.bind, Except.ok.injEq, Prod.mk.injEq] at h
            obtain ⟨hb2, hs3⟩ := h
            subst hb2
            subst hs3
            have hfc : List.filter (fun s => contains compare s.Tag) (stats :: rest)
                = stats :: List.filter (fun s => contains compare s.Tag) rest := by
              rw [List.filter_cons, if_pos hc]
            rw [hfc]
            rcases ih bs ses hrest with ⟨hl1, hl2, hptw⟩
            refine ⟨by simpa using hl1, by simpa using hl2, ?_⟩
            intro i hb hs2 hf
            match i with
            | 0 => exact ⟨hbeta, hsebeta⟩
            | Nat.succ j =>
              exact hptw j (Nat.lt_of_succ_lt_succ hb)
                (Nat.lt_of_succ_lt_succ hs2) (Nat.lt_of_succ_lt_succ hf)
    · rw [if_neg hc] at h
      have hfc : List.filter (fun s => contains compare s.Tag) (stats :: rest)
          = List.filter (fun s => contains compare s.Tag) rest := by
        rw [List.filter_cons, if_neg hc]
      rw [hfc]
      exact ih betas sebetas h

/-- Claim C2: for any heterogeneity test and any per-variant row collection
with at most one row per tag, if some tag named in the compare list has no
row for this variant or its row carries a textual NA beta or standard
error, then all four meta fields are the not-computed marker NA — never a
number; otherwise the result is the heterogeneity computation applied to
precisely the parsed beta/standard-error values of the rows whose tag is
named in the compare list. -/
theorem writeMMPOutput_meta_missing_policy
    (survivalF chiSquaredCDF sqrtF : ℚ → ℚ) (fmtF : ℚ → String)
    (test : HeterogeneityTestConf) (multipleStats : List OutputStats)
    (hUnique : ∀ s1 ∈ multipleStats, ∀ s2 ∈ multipleStats,
      s1.Tag = s2.Tag → s1 = s2) :
    ((∃ t ∈ test.Compare,
        (¬ ∃ s ∈ multipleStats, s.Tag = t)
        ∨ (∃ s ∈ multipleStats, s.Tag = t ∧ (s.Beta = "NA" ∨ s.SEBeta = "NA"))) →
      metaStatsForTest survivalF chiSquaredCDF sqrtF fmtF test multipleStats
        = .ok { Beta := "NA", SEBeta := "NA", PVal := "NA", HetPVal := "NA" })
    ∧ ((¬ ∃ t ∈ test.Compare,
        (¬ ∃ s ∈ multipleStats, s.Tag = t)
        ∨ (∃ s ∈ multipleStats, s.Tag = t ∧ (s.Beta = "NA" ∨ s.SEBeta = "NA"))) →
      ∀ res, metaStatsForTest survivalF chiSquaredCDF sqrtF fmtF test multipleStats
          = .ok res →
        ∃ betas sebetas,
          collectBetasSebetas test.Compare multipleStats = .ok (betas, sebetas)
          ∧ res = ComputeHeterogeneityTest survivalF chiSquaredCDF sqrtF fmtF
              betas sebetas
          ∧ betas.length
              = (multipleStats.filter (fun s => contains test.Compare s.Tag)).length
          ∧ sebetas.length
              = (multipleStats.filter (fun s => contains test.Compare s.Tag)).length
          ∧ ∀ i (hb : i < betas.length) (hs2 : i < sebetas.length)
              (hf : i < (multipleStats.filter
                (fun s => contains test.Compare s.Tag)).length),
              parseFloat64NaN
                  (((multipleStats.filter (fun s => contains test.Compare s.Tag)).get
                    ⟨i, hf⟩).Beta) = .ok (betas.get ⟨i, hb⟩)
              ∧ parseFloat64NaN
                  (((multipleStats.filter (fun s => contains test.Compare s.Tag)).get
                    ⟨i, hf⟩).SEBeta) = .ok (sebetas.get ⟨i, hs2⟩)) := by
  constructor
  · intro hM
    have hfalse := (hasNecessaryData_eq_false_iff test multipleStats hUnique).mpr hM
    rw [metaStatsForTest, if_neg (by rw [hfalse]; exact Bool.false_ne_true)]
  · intro hM res hres
    have htrue : hasNecessaryData test multipleStats = true := by
      cases hnd : hasNecessaryData test multipleStats
      · exact absurd ((hasNecessaryData_eq_false_iff test multipleStats hUnique).mp hnd) hM
      · rfl
    rw [metaStatsForTest, if_pos htrue] at hres
    cases hcol : collectBetasSebetas test.Compare multipleStats with
    | error e => rw [hcol] at hres; simp [Bind.bind, Except.bind] at hres
    | ok p =>
      obtain ⟨betas, sebetas⟩ := p
      rw [hcol] at hres
      simp only [Bind.bind, Except.bind, Except.ok.injEq] at hres
      subst hres
      rcases collectBetasSebetas_spec test.Compare multipleStats betas sebetas hcol
        with ⟨h1, h2, h3⟩
      exact ⟨betas, sebetas, rfl, rfl, h1, h2, h3⟩

def exRowA : OutputStats :=
  { Tag := "A", PVal := "0.001", Beta := "0.5", SEBeta := "0.1",
    AF := "0.3", PIP := "NA", CS := "NA" }

theorem writeMMPOutput_meta_missing_policy_witness :
    metaStatsForTest (fun q => q) (fun q => q) (fun q => q) (fun _ => "x")
        exTest1 [exRowA]
      = .ok { Beta := "NA", SEBeta := "NA", PVal := "NA", HetPVal := "NA" } :=
  (writeMMPOutput_meta_missing_policy (fun q => q) (fun q => q) (fun q => q)
    (fun _ => "x") exTest1 [exRowA] (by decide)).1 (by decide)

/-! ## Output assembler (output.go `writeMMPOutput`, current revision)

The output table is a list of records (lists of cells); Go's
`record := make([]string, len(headerFields))` with indexed assignment is
modelled by a `List String` updated with `List.set`.  `List.set` past the
end is a no-op where Go would panic with an index-out-of-range; the
claim-C8 theorem exhibits exactly such an out-of-range write. -/

def statsCols : List String := ["pval", "beta", "sebeta", "af", "pip", "cs"]

def lenCpraFields : ℕ := 4

/-- output.go: the header row — 4 key fields, then 6 stats columns per
dataset in configuration order, then 4 meta columns per heterogeneity
test. -/
def headerFields (conf : Conf) : List String :=
  ["chrom", "pos", "ref", "alt"]
  ++ conf.Inputs.flatMap
      (fun inputConf => statsCols.map (fun suffix => inputConf.tag ++ "_" ++ suffix))
  ++ conf.HeterogeneityTests.flatMap
      (fun test =>
        [test.Tag ++ "_meta_beta", test.Tag ++ "_meta_sebeta",
         test.Tag ++ "_meta_pval", test.Tag ++ "_meta_hetpval"])

/-- output.go `indexOfTest`: index of the first test with the given tag,
`-1` when absent. -/
def indexOfTest (tag : String) : List HeterogeneityTestConf → ℤ
  | [] => -1
  | test :: rest =>
    if test.Tag = tag then 0
    else
      let r := indexOfTest tag rest
      if r = -1 then -1 else r + 1

/-- The offset-search loop of output.go `writeMMPOutput`:
`var offset int; for ii, inputConf := range conf.Inputs { if inputConf.Tag
== stats.Tag { offset = lenCpraFields + ii*len(statsCols) } }` — the last
matching dataset wins, and a tag matching no dataset leaves offset 0. -/
def statsOffsetAux (tag : String) : List InputConf → ℕ → ℕ → ℕ
  | [], _, offset => offset
  | inputConf :: rest, ii, offset =>
    statsOffsetAux tag rest (ii + 1)
      (if inputConf.tag = tag then lenCpraFields + ii * statsCols.length else offset)

def statsOffset (inputs : List InputConf) (tag : String) : ℕ :=
  statsOffsetAux tag inputs 0 0

/-- The six per-dataset cell writes of output.go `writeMMPOutput`. -/
def writeStats (inputs : List InputConf) (record : List String)
    (stats : OutputStats) : List String :=
  let offset := statsOffset inputs stats.Tag
  (((((record.set (offset + 0) stats.PVal).set (offset + 1) stats.Beta).set
    (offset + 2) stats.SEBeta).set (offset + 3) stats.AF).set
    (offset + 4) stats.PIP).set (offset + 5) stats.CS

/-- The meta-column offset of output.go `writeMMPOutput`:
`lenCpraFields + len(conf.Inputs)*len(statsCols) +
indexOfTest(test.Tag, conf.HeterogeneityTests)*len(statsCols)`.
Note the stride is `len(statsCols) = 6` although only 4 meta columns per
test exist in the header. -/
def metaOffset (conf : Conf) (test : HeterogeneityTestConf) : ℤ :=
  (lenCpraFields : ℤ) + conf.Inputs.length * statsCols.length
    + indexOfTest test.Tag conf.HeterogeneityTests * statsCols.length

/-- The four meta cell writes of output.go `writeMMPOutput`.  The offset is
nonnegative whenever the test is drawn from the configuration (Go would
panic on a negative index). -/
def writeMeta (record : List String) (offset : ℕ)
    (metaStats : OutputMetaStats) : List String :=
  (((record.set (offset + 0) metaStats.Beta).set
    (offset + 1) metaStats.SEBeta).set
    (offset + 2) metaStats.PVal).set
    (offset + 3) metaStats.HetPVal

/-- The per-test loop of output.go `writeMMPOutput`. -/
def metaLoop (survivalF chiSquaredCDF sqrtF : ℚ → ℚ) (fmtF : ℚ → String)
    (conf : Conf) (multipleStats : List OutputStats) :
    List HeterogeneityTestConf → List String → Except String (List String)
  | [], record => .ok record
  | test :: rest, record => do
    let metaStats ← metaStatsForTest survivalF chiSquaredCDF sqrtF fmtF
      test multipleStats
    metaLoop survivalF chiSquaredCDF sqrtF fmtF conf multipleStats rest
      (writeMeta record (metaOffset conf test).toNat metaStats)

/-- One data record of output.go `writeMMPOutput`: key fields, every other
cell initialized to the missing marker, then the per-dataset writes, then
the per-test meta writes. -/
def buildRecord (survivalF chiSquaredCDF sqrtF : ℚ → ℚ) (fmtF : ℚ → String)
    (conf : Conf) (cpra : CPRA) (multipleStats : List OutputStats) :
    Except String (List String) :=
  let record0 := [cpra.Chrom, cpra.Pos, cpra.Ref, cpra.Alt]
    ++ List.replicate ((headerFields conf).length - lenCpraFields)
        outputDefaultMissingValue
  let record1 := multipleStats.foldl (writeStats conf.Inputs) record0
  metaLoop survivalF chiSquaredCDF sqrtF fmtF conf multipleStats
    conf.HeterogeneityTests record1

def buildRecords (survivalF chiSquaredCDF sqrtF : ℚ → ℚ) (fmtF : ℚ → String)
    (conf : Conf) : StatsMap → Except String (List (List String))
  | [] => .ok []
  | e :: rest => do
    let record ← buildRecord survivalF chiSquaredCDF sqrtF fmtF conf e.1 e.2
    let tail ← buildRecords survivalF chiSquaredCDF sqrtF fmtF conf rest
    .ok (record :: tail)

/-- output.go `writeMMPOutput` as a function from the combined variant map
to the table it writes: the header record followed by one data record per
map entry. -/
def writeMMPOutput (survivalF chiSquaredCDF sqrtF : ℚ → ℚ) (fmtF : ℚ → String)
    (conf : Conf) (combinedStatsVariants : StatsMap) :
    Except String (List (List String)) := do
  let dataRecords ← buildRecords survivalF chiSquaredCDF sqrtF fmtF conf
    combinedStatsVariants
  .ok (headerFields conf :: dataRecords)

/-- part_004 `main`, phases 1 to 4: scan for the selection, collect the
statistics, merge the fine-mapping, assemble the output table.  Each
dataset's summary-statistics file and fine-mapping file content is given
positionally. -/
def mmpioMain (survivalF chiSquaredCDF sqrtF : ℚ → ℚ) (fmtF : ℚ → String)
    (conf : Conf) (sumFiles : List SummaryFile) (fmFiles : List FinemapFile) :
    Except String (List (List String)) := do
  let selectedVariants ← scanForVariantSelection (conf.Inputs.zip sumFiles)
  let variantStats := findVariantStats (conf.Inputs.zip sumFiles) selectedVariants
  let combined ← combineFinemapping (conf.Inputs.zip fmFiles) variantStats
  writeMMPOutput survivalF chiSquaredCDF sqrtF fmtF conf combined

/-! ## Claim C8: meta columns land outside their own 4 header columns
when more than one heterogeneity test is configured. -/

def exT1AA : HeterogeneityTestConf := { Tag := "t1", Compare := ["A", "A"] }

def exT2AA : HeterogeneityTestConf := { Tag := "t2", Compare := ["A", "A"] }

def exConfC8 : Conf :=
  { Inputs := [exConfA], HeterogeneityTests := [exT1AA, exT2AA] }

/-- Claim C8 is right about the header shape but wrong about the writes:
with 1 dataset and 2 tests the header has 4 + 6 + 4·2 = 18 columns and
the second test's own columns start at index 14, yet the code computes the
second test's write offset with a stride of 6, landing at 16; its beta and
standard error overwrite the second test's p-value columns, and its last
two writes fall at indices 18 and 19, beyond the record — an
index-out-of-range panic in Go.  In the resulting (model) record the
second test's own beta column still holds the missing marker while its
beta value sits two columns later. -/
theorem writeMMPOutput_meta_offset_bug :
    (headerFields exConfC8).length = 18
    ∧ (headerFields exConfC8).get ⟨14, by decide⟩ = "t2_meta_beta"
    ∧ metaOffset exConfC8 exT2AA = 16
    ∧ (metaOffset exConfC8 exT2AA).toNat + 3 ≥ (headerFields exConfC8).length
    ∧ buildRecord (fun q => q) (fun q => q) (fun q => q) (fun _ => "M")
        exConfC8 exK1 [exRowA]
      = .ok ["1", "100", "A", "T", "0.001", "0.5", "0.1", "0.3", "NA", "NA",
             "M", "M", "M", "M", "NA", "NA", "M", "M"]
    ∧ metaStatsForTest (fun q => q) (fun q => q) (fun q => q) (fun _ => "M")
        exT2AA [exRowA]
      = .ok { Beta := "M", SEBeta := "M", PVal := "M", HetPVal := "M" } := by
  refine ⟨by decide, by decide, by decide, by decide, ?_, ?_⟩
  · decide
  · decide

/-! ## Cell-level lemmas for the output records (towards Claim C9) -/

/-- The six per-dataset cell values, in column order
pval, beta, sebeta, af, pip, cs. -/
def statsField (stats : OutputStats) : ℕ → String
  | 0 => stats.PVal
  | 1 => stats.Beta
  | 2 => stats.SEBeta
  | 3 => stats.AF
  | 4 => stats.PIP
  | _ => stats.CS

/-- The four per-test meta cell values, in column order
beta, sebeta, pval, hetpval. -/
def metaField (metaStats : OutputMetaStats) : ℕ → String
  | 0 => metaStats.Beta
  | 1 => metaStats.SEBeta
  | 2 => metaStats.PVal
  | _ => metaStats.HetPVal

theorem getElem?_set_cases (l : List String) (i p : ℕ) (v : String) :
    (l.set i v)[p]? = l[p]? ∨ (p = i ∧ (l.set i v)[p]? = some v) := by
  by_cases hpi : p = i
  · subst hpi
    by_cases hlen : p < l.length
    · exact Or.inr ⟨rfl, List.getElem?_set_self hlen⟩
    · rw [List.set_eq_of_length_le (Nat.le_of_not_lt hlen)]
      exact Or.inl rfl
  · exact Or.inl (List.getElem?_set_ne (fun h => hpi h.symm))

theorem set_preserves_value (l : List String) (i p : ℕ) (v x : String)
    (hv : p = i → v = x) (hl : l[p]? = some x) : (l.set i v)[p]? = some x := by
  rcases getElem?_set_cases l i p v with h | ⟨hpi, h⟩
  · rw [h]; exact hl
  · rw [h, hv hpi]

theorem writeStats_length (inputs : List InputConf) (record : List String)
    (stats : OutputStats) :
    (writeStats inputs record stats).length = record.length := by
  simp [writeStats]

theorem writeStats_preserves_value (inputs : List InputConf)
    (record : List String) (stats : OutputStats) (p : ℕ) (x : String)
    (hv : ∀ j, j < 6 → p = statsOffset inputs stats.Tag + j → statsField stats j = x)
    (hl : record[p]? = some x) :
    (writeStats inputs record stats)[p]? = some x := by
  rw [writeStats]
  refine set_preserves_value _ _ _ _ _ (fun h => hv 5 (by omega) h) ?_
  refine set_preserves_value _ _ _ _ _ (fun h => hv 4 (by omega) h) ?_
  refine set_preserves_value _ _ _ _ _ (fun h => hv 3 (by omega) h) ?_
  refine set_preserves_value _ _ _ _ _ (fun h => hv 2 (by omega) h) ?_
  refine set_preserves_value _ _ _ _ _ (fun h => hv 1 (by omega) h) ?_
  exact set_preserves_value _ _ _ _ _ (fun h => hv 0 (by omega) (by simpa using h)) hl

theorem writeStats_cases (inputs : List InputConf) (record : List String)
    (stats : OutputStats) (p : ℕ) :
    (writeStats inputs record stats)[p]? = record[p]?
    ∨ ∃ j, j < 6 ∧ (writeStats inputs record stats)[p]? = some (statsField stats j) := by
  rw [writeStats]
  have step : ∀ (l : List String) (i : ℕ) (v : String) (j : ℕ), j < 6 →
      v = statsField stats j →
      ((l.set i v)[p]? = l[p]?
        ∨ ∃ j2, j2 < 6 ∧ (l.set i v)[p]? = some (statsField stats j2)) := by
    intro l i v j hj hvj
    rcases getElem?_set_cases l i p v with h | ⟨_, h⟩
    · exact Or.inl h
    · exact Or.inr ⟨j, hj, by rw [h, hvj]⟩
  have chain : ∀ (l : List String),
      (l[p]? = record[p]? ∨ ∃ j, j < 6 ∧ l[p]? = some (statsField stats j)) →
      ∀ (i : ℕ) (v : String) (j : ℕ), j < 6 → v = statsField stats j →
      ((l.set i v)[p]? = record[p]?
        ∨ ∃ j2, j2 < 6 ∧ (l.set i v)[p]? = some (statsField stats j2)) := by
    intro l hl i v j hj hvj
    rcases step l i v j hj hvj with h | h
    · rw [h]; exact hl
    · exact Or.inr h
  refine chain _ ?_ _ _ 5 (by omega) rfl
  refine chain _ ?_ _ _ 4 (by omega) rfl
  refine chain _ ?_ _ _ 3 (by omega) rfl
  refine chain _ ?_ _ _ 2 (by omega) rfl
  refine chain _ ?_ _ _ 1 (by omega) rfl
  refine chain _ ?_ _ _ 0 (by omega) rfl
  exact Or.inl rfl

theorem foldl_writeStats_length (inputs : List InputConf)
    (multipleStats : List OutputStats) (record : List String) :
    (multipleStats.foldl (writeStats inputs) record).length = record.length := by
  induction multipleStats generalizing record with
  | nil => rfl
  | cons s rest ih => rw [List.foldl_cons, ih, writeStats_length]

theorem foldl_writeStats_preserves_value (inputs : List InputConf)
    (multipleStats : List OutputStats) (record : List String) (p : ℕ) (x : String)
    (hv : ∀ s ∈ multipleStats, ∀ j, j < 6 →
      p = statsOffset inputs s.Tag + j → statsField s j = x)
    (hl : record[p]? = some x) :
    (multipleStats.foldl (writeStats inputs) record)[p]? = some x := by
  induction multipleStats generalizing record with
  | nil => exact hl
  | cons s rest ih =>
    rw [List.foldl_cons]
    exact ih _ (fun s2 hs2 => hv s2 (List.mem_cons_of_mem _ hs2))
      (writeStats_preserves_value inputs record s p x
        (hv s (List.mem_cons_self _ _)) hl)

theorem foldl_writeStats_cases (inputs : List InputConf)
    (multipleStats : List OutputStats) (record : List String) (p : ℕ) :
    (multipleStats.foldl (writeStats inputs) record)[p]? = record[p]?
    ∨ ∃ s ∈ multipleStats, ∃ j, j < 6 ∧
        (multipleStats.foldl (writeStats inputs) record)[p]?
          = some (statsField s j) := by
  induction multipleStats generalizing record with
  | nil => exact Or.inl rfl
  | cons s rest ih =>
    rw [List.foldl_cons]
    rcases ih (writeStats inputs record s) with h | ⟨s2, hs2, j, hj, h⟩
    · rw [h]
      rcases writeStats_cases inputs record s p with h2 | ⟨j, hj, h2⟩
      · exact Or.inl h2
      · exact Or.inr ⟨s, List.mem_cons_self _ _, j, hj, h2⟩
    · exact Or.inr ⟨s2, List.mem_cons_of_mem _ hs2, j, hj, h⟩

theorem writeMeta_length (record : List String) (offset : ℕ)
    (metaStats : OutputMetaStats) :
    (writeMeta record offset metaStats).length = record.length := by
  simp [writeMeta]

theorem writeMeta_preserves_value (record : List String) (offset : ℕ)
    (metaStats : OutputMetaStats) (p : ℕ) (x : String)
    (hp : ∀ j, j < 4 → p ≠ offset + j)
    (hl : record[p]? = some x) :
    (writeMeta record offset metaStats)[p]? = some x := by
  rw [writeMeta]
  refine set_preserves_value _ _ _ _ _ (fun h => absurd h (hp 3 (by omega))) ?_
  refine set_preserves_value _ _ _ _ _ (fun h => absurd h (hp 2 (by omega))) ?_
  refine set_preserves_value _ _ _ _ _ (fun h => absurd h (hp 1 (by omega))) ?_
  exact set_preserves_value _ _ _ _ _
    (fun h => absurd (by simpa using h) (hp 0 (by omega))) hl

theorem writeMeta_cases (record : List String) (offset : ℕ)
    (metaStats : OutputMetaStats) (p : ℕ) :
    (writeMeta record offset metaStats)[p]? = record[p]?
    ∨ ∃ j, j < 4 ∧ (writeMeta record offset metaStats)[p]?
        = some (metaField metaStats j) := by
  rw [writeMeta]
  have chain : ∀ (l : List String),
      (l[p]? = record[p]? ∨ ∃ j, j < 4 ∧ l[p]? = some (metaField metaStats j)) →
      ∀ (i : ℕ) (v : String) (j : ℕ), j < 4 → v = metaField metaStats j →
      ((l.set i v)[p]? = record[p]?
        ∨ ∃ j2, j2 < 4 ∧ (l.set i v)[p]? = some (metaField metaStats j2)) := by
    intro l hl i v j hj hvj
    rcases getElem?_set_cases l i p v with h | ⟨_, h⟩
    · rw [h]; exact hl
    · exact Or.inr ⟨j, hj, by rw [h, hvj]⟩
  refine chain _ ?_ _ _ 3 (by omega) rfl
  refine chain _ ?_ _ _ 2 (by omega) rfl
  refine chain _ ?_ _ _ 1 (by omega) rfl
  refine chain _ ?_ _ _ 0 (by omega) rfl
  exact Or.inl rfl

theorem metaLoop_length (survivalF chiSquaredCDF sqrtF : ℚ → ℚ) (fmtF : ℚ → String)
    (conf : Conf) (multipleStats : List OutputStats) :
    ∀ (tests : List HeterogeneityTestConf) (record r2 : List String),
      metaLoop survivalF chiSquaredCDF sqrtF fmtF conf multipleStats tests record
        = .ok r2 →
      r2.length = record.length := by
  intro tests
  induction tests with
  | nil =>
    intro record r2 h
    rw [metaLoop] at h
    cases h
    rfl
  | cons test rest ih =>
    intro record r2 h
    rw [metaLoop] at h
    cases hms : metaStatsForTest survivalF chiSquaredCDF sqrtF fmtF test multipleStats with
    | error e => rw [hms] at h; simp [Bind.bind, Except.bind] at h
    | ok ms =>
      rw [hms] at h
      simp only [Bind.bind, Except.bind] at h
      rw [ih _ r2 h, writeMeta_length]

theorem metaLoop_preserves_value (survivalF chiSquaredCDF sqrtF : ℚ → ℚ)
    (fmtF : ℚ → String) (conf : Conf) (multipleStats : List OutputStats) (p : ℕ)
    (x : String) :
    ∀ (tests : List HeterogeneityTestConf) (record r2 : List String),
      (∀ test ∈ tests, ∀ j, j < 4 → p ≠ (metaOffset conf test).toNat + j) →
      metaLoop survivalF chiSquaredCDF sqrtF fmtF conf multipleStats tests record
        = .ok r2 →
      record[p]? = some x → r2[p]? = some x := by
  intro tests
  induction tests with
  | nil =>
    intro record r2 _ h hl
    rw [metaLoop] at h
    cases h
    exact hl
  | cons test rest ih =>
    intro record r2 hp h hl
    rw [metaLoop] at h
    cases hms : metaStatsForTest survivalF chiSquaredCDF sqrtF fmtF test multipleStats with
    | error e => rw [hms] at h; simp [Bind.bind, Except.bind] at h
    | ok ms =>
      rw [hms] at h
      simp only [Bind.bind, Except.bind] at h
      exact ih _ r2 (fun t ht => hp t (List.mem_cons_of_mem _ ht)) h
        (writeMeta_preserves_value record _ ms p x
          (hp test (List.mem_cons_self _ _)) hl)

theorem metaLoop_cases (survivalF chiSquaredCDF sqrtF : ℚ → ℚ)
    (fmtF : ℚ → String) (conf : Conf) (multipleStats : List OutputStats) (p : ℕ) :
    ∀ (tests : List HeterogeneityTestConf) (record r2 : List String),
      metaLoop survivalF chiSquaredCDF sqrtF fmtF conf multipleStats tests record
        = .ok r2 →
      r2[p]? = record[p]?
      ∨ ∃ test ∈ tests, ∃ ms,
          metaStatsForTest survivalF chiSquaredCDF sqrtF fmtF test multipleStats
            = .ok ms
          ∧ ∃ j, j < 4 ∧ r2[p]? = some (metaField ms j) := by
  intro tests
  induction tests with
  | nil =>
    intro record r2 h
    rw [metaLoop] at h
    cases h
    exact Or.inl rfl
  | cons test rest ih =>
    intro record r2 h
    rw [metaLoop] at h
    cases hms : metaStatsForTest survivalF chiSquaredCDF sqrtF fmtF test multipleStats with
    | error e => rw [hms] at h; simp [Bind.bind, Except.bind] at h
    | ok ms =>
      rw [hms] at h
      simp only [Bind.bind, Except.bind] at h
      rcases ih _ r2 h with h2 | ⟨t2, ht2, ms2, hms2, j, hj, h2⟩
      · rw [h2]
        rcases writeMeta_cases record (metaOffset conf test).toNat ms p
          with h3 | ⟨j, hj, h3⟩
        · exact Or.inl h3
        · exact Or.inr ⟨test, List.mem_cons_self _ _, ms, hms, j, hj, h3⟩
      · exact Or.inr ⟨t2, List.mem_cons_of_mem _ ht2, ms2, hms2, j, hj, h2⟩

theorem indexOfTest_nonneg (tag : String) :
    ∀ tests : List HeterogeneityTestConf,
      (∃ t ∈ tests, t.Tag = tag) → 0 ≤ indexOfTest tag tests := by
  intro tests
  induction tests with
  | nil => rintro ⟨t, ht, _⟩; simp at ht
  | cons test rest ih =>
    rintro ⟨t, ht, htag⟩
    rw [indexOfTest]
    by_cases hh : test.Tag = tag
    · rw [if_pos hh]
    · rw [if_neg hh]
      have hmem : t ∈ rest := by
        rcases List.mem_cons.mp ht with h | h
        · exact absurd (h ▸ htag) hh
        · exact h
      have hr := ih ⟨t, hmem, htag⟩
      have hne : ¬ (indexOfTest tag rest = -1) := by omega
      simp only [hne, if_false]
      omega

theorem metaOffset_ge (conf : Conf) (test : HeterogeneityTestConf)
    (ht : test ∈ conf.HeterogeneityTests) :
    lenCpraFields + conf.Inputs.length * statsCols.length
      ≤ (metaOffset conf test).toNat := by
  have hidx := indexOfTest_nonneg test.Tag conf.HeterogeneityTests ⟨test, ht, rfl⟩
  rw [metaOffset]
  have hc : statsCols.length = 6 := rfl
  have hl : lenCpraFields = 4 := rfl
  rw [hc, hl]
  omega

theorem statsOffsetAux_no_match (tag : String) :
    ∀ (inputs : List InputConf) (ii offset : ℕ),
      (∀ ic ∈ inputs, ic.tag ≠ tag) →
      statsOffsetAux tag inputs ii offset = offset := by
  intro inputs
  induction inputs with
  | nil => intro ii offset _; rfl
  | cons ic rest ih =>
    intro ii offset hne
    rw [statsOffsetAux, if_neg (hne ic (List.mem_cons_self _ _))]
    exact ih (ii + 1) offset (fun ic2 h2 => hne ic2 (List.mem_cons_of_mem _ h2))

theorem statsOffsetAux_match (tag : String) :
    ∀ (inputs : List InputConf) (ii offset k : ℕ) (hk : k < inputs.length),
      (inputs.map (fun ic => ic.tag)).Nodup →
      (inputs.get ⟨k, hk⟩).tag = tag →
      statsOffsetAux tag inputs ii offset
        = lenCpraFields + (ii + k) * statsCols.length := by
  intro inputs
  induction inputs with
  | nil => intro ii offset k hk; simp at hk
  | cons ic rest ih =>
    intro ii offset k hk hNodup htag
    rw [List.map_cons, List.nodup_cons] at hNodup
    match k with
    | 0 =>
      have hic : ic.tag = tag := htag
      rw [statsOffsetAux, if_pos hic]
      rw [statsOffsetAux_no_match tag rest (ii + 1) _ ?_]
      · rw [Nat.add_zero]
      · intro ic2 h2 hc2
        exact hNodup.1 (hic ▸ hc2 ▸ List.mem_map.mpr ⟨ic2, h2, rfl⟩)
    | Nat.succ j =>
      have hj : j < rest.length := Nat.lt_of_succ_lt_succ hk
      have htag2 : (rest.get ⟨j, hj⟩).tag = tag := htag
      have hic : ¬ (ic.tag = tag) := by
        intro hc
        exact hNodup.1 ((hc.trans htag2.symm) ▸
          List.mem_map.mpr ⟨rest.get ⟨j, hj⟩, List.get_mem rest j hj, rfl⟩)
      rw [statsOffsetAux, if_neg hic,
        ih (ii + 1) offset j hj hNodup.2 htag2,
        show ii + 1 + j = ii + Nat.succ j from by omega]

theorem statsOffset_eq (inputs : List InputConf) (tag : String) (k : ℕ)
    (hk : k < inputs.length)
    (hNodup : (inputs.map (fun ic => ic.tag)).Nodup)
    (htag : (inputs.get ⟨k, hk⟩).tag = tag) :
    statsOffset inputs tag = lenCpraFields + k * statsCols.length := by
  rw [statsOffset, statsOffsetAux_match tag inputs 0 0 k hk hNodup htag,
    Nat.zero_add]

theorem length_flatMap_const {α β : Type} (c : ℕ) :
    ∀ (l : List α) (f : α → List β),
      (∀ x ∈ l, (f x).length = c) → (l.flatMap f).length = c * l.length := by
  intro l
  induction l with
  | nil => intro f _; simp
  | cons a rest ih =>
    intro f hf
    rw [List.flatMap_cons, List.length_append,
      ih f (fun x hx => hf x (List.mem_cons_of_mem _ hx)),
      hf a (List.mem_cons_self _ _), List.length_cons]
    ring

theorem headerFields_length (conf : Conf) :
    (headerFields conf).length
      = lenCpraFields + statsCols.length * conf.Inputs.length
        + 4 * conf.HeterogeneityTests.length := by
  rw [headerFields, List.length_append, List.length_append]
  rw [length_flatMap_const statsCols.length conf.Inputs
    (fun ic => statsCols.map (fun suffix => ic.tag ++ "_" ++ suffix))
    (fun x _ => List.length_map _ _)]
  rw [length_flatMap_const 4 conf.HeterogeneityTests
    (fun test =>
      [test.Tag ++ "_meta_beta", test.Tag ++ "_meta_sebeta",
       test.Tag ++ "_meta_pval", test.Tag ++ "_meta_hetpval"])
    (fun x _ => rfl)]
  rfl

theorem record0_length (cpra : CPRA) (L : ℕ) (hL : lenCpraFields ≤ L) :
    ([cpra.Chrom, cpra.Pos, cpra.Ref, cpra.Alt]
      ++ List.replicate (L - lenCpraFields) outputDefaultMissingValue).length = L := by
  rw [List.length_append, List.length_replicate]
  have h4 : lenCpraFields = 4 := rfl
  simp only [List.length_cons, List.length_nil]
  omega

theorem record0_get_na (cpra : CPRA) (L p : ℕ) (hp : lenCpraFields ≤ p)
    (hpL : p < L) :
    ([cpra.Chrom, cpra.Pos, cpra.Ref, cpra.Alt]
      ++ List.replicate (L - lenCpraFields) outputDefaultMissingValue)[p]?
      = some "NA" := by
  have h4 : lenCpraFields = 4 := rfl
  rw [List.getElem?_append_right (by simp; omega)]
  have hlt : p - [cpra.Chrom, cpra.Pos, cpra.Ref, cpra.Alt].length
      < L - lenCpraFields := by
    simp only [List.length_cons, List.length_nil]
    omega
  rw [List.getElem?_replicate_of_lt hlt]
  rfl

theorem record0_na_of_get (cpra : CPRA) (L p : ℕ) (x : String)
    (hp : lenCpraFields ≤ p)
    (hx : ([cpra.Chrom, cpra.Pos, cpra.Ref, cpra.Alt]
      ++ List.replicate (L - lenCpraFields) outputDefaultMissingValue)[p]?
      = some x) :
    x = "NA" := by
  have h4 : lenCpraFields = 4 := rfl
  rw [List.getElem?_append_right (by simp; omega)] at hx
  rw [List.getElem?_replicate] at hx
  split at hx
  · cases hx
    rfl
  · exact Option.noConfusion hx

theorem buildRecord_cells (survivalF chiSquaredCDF sqrtF : ℚ → ℚ)
    (fmtF : ℚ → String) (conf : Conf) (cpra : CPRA)
    (multipleStats : List OutputStats) (rec : List String)
    (hNodup : (conf.Inputs.map (fun ic => ic.tag)).Nodup)
    (hTags : ∀ s ∈ multipleStats, ∃ k, ∃ hk : k < conf.Inputs.length,
      s.Tag = (conf.Inputs.get ⟨k, hk⟩).tag)
    (hbuild : buildRecord survivalF chiSquaredCDF sqrtF fmtF conf cpra
      multipleStats = .ok rec) :
    rec.length = (headerFields conf).length
    ∧ (∀ dIdx (hd : dIdx < conf.Inputs.length),
        ((∀ s ∈ multipleStats, s.Tag ≠ (conf.Inputs.get ⟨dIdx, hd⟩).tag) →
          ∀ j, j < 6 →
            rec[lenCpraFields + dIdx * statsCols.length + j]? = some "NA")
        ∧ ((∀ s ∈ multipleStats, s.Tag = (conf.Inputs.get ⟨dIdx, hd⟩).tag →
              s.PIP = "NA" ∧ s.CS = "NA") →
            rec[lenCpraFields + dIdx * statsCols.length + 4]? = some "NA"
            ∧ rec[lenCpraFields + dIdx * statsCols.length + 5]? = some "NA"))
    ∧ (∀ p x, lenCpraFields ≤ p → rec[p]? = some x →
        x = "NA"
        ∨ (∃ s ∈ multipleStats, ∃ j, j < 6 ∧ x = statsField s j)
        ∨ (∃ test ∈ conf.HeterogeneityTests, ∃ ms,
            metaStatsForTest survivalF chiSquaredCDF sqrtF fmtF test
              multipleStats = .ok ms
            ∧ ∃ j, j < 4 ∧ x = metaField ms j)) := by
  have h6 : statsCols.length = 6 := rfl
  have h4 : lenCpraFields = 4 := rfl
  have hL4 : lenCpraFields ≤ (headerFields conf).length := by
    rw [headerFields_length]
    omega
  simp only [buildRecord] at hbuild
  have hr0len := record0_length cpra (headerFields conf).length hL4
  have hreclen : rec.length = (headerFields conf).length := by
    rw [metaLoop_length survivalF chiSquaredCDF sqrtF fmtF conf multipleStats
      conf.HeterogeneityTests _ rec hbuild]
    rw [foldl_writeStats_length]
    exact hr0len
  have hmetap : ∀ p, p < lenCpraFields + conf.Inputs.length * statsCols.length →
      ∀ test ∈ conf.HeterogeneityTests, ∀ j, j < 4 →
        p ≠ (metaOffset conf test).toNat + j := by
    intro p hp test ht j hj
    have := metaOffset_ge conf test ht
    omega
  have cell : ∀ dIdx (hd : dIdx < conf.Inputs.length) (j : ℕ), j < 6 →
      (∀ s ∈ multipleStats,
        s.Tag = (conf.Inputs.get ⟨dIdx, hd⟩).tag → statsField s j = "NA") →
      rec[lenCpraFields + dIdx * statsCols.length + j]? = some "NA" := by
    intro dIdx hd j hj hfield
    have hpL : lenCpraFields + dIdx * statsCols.length + j
        < (headerFields conf).length := by
      rw [headerFields_length, h6, h4]
      omega
    have h0 := record0_get_na cpra (headerFields conf).length
      (lenCpraFields + dIdx * statsCols.length + j) (by omega) hpL
    have h1 : (multipleStats.foldl (writeStats conf.Inputs)
        ([cpra.Chrom, cpra.Pos, cpra.Ref, cpra.Alt]
          ++ List.replicate ((headerFields conf).length - lenCpraFields)
              outputDefaultMissingValue))[lenCpraFields
                + dIdx * statsCols.length + j]? = some "NA" := by
      refine foldl_writeStats_preserves_value conf.Inputs multipleStats _ _ _
        ?_ h0
      intro s hs j2 hj2 hpoff
      rcases hTags s hs with ⟨k, hk, hsk⟩
      rw [statsOffset_eq conf.Inputs s.Tag k hk hNodup hsk.symm] at hpoff
      rw [h6] at hpoff
      have hkd : k = dIdx := by omega
      subst hkd
      have hjj : j2 = j := by omega
      subst hjj
      exact hfield s hs hsk
    exact metaLoop_preserves_value survivalF chiSquaredCDF sqrtF fmtF conf
      multipleStats _ "NA" conf.HeterogeneityTests _ rec
      (fun test ht j2 hj2 => hmetap _ (by rw [h6, h4]; omega) test ht j2 hj2)
      hbuild h1
  refine ⟨hreclen, ?_, ?_⟩
  · intro dIdx hd
    constructor
    · intro hnone j hj
      refine cell dIdx hd j hj ?_
      intro s hs hsk
      exact absurd hsk (hnone s hs)
    · intro hpip
      exact ⟨cell dIdx hd 4 (by omega) (fun s hs hsk => (hpip s hs hsk).1),
        cell dIdx hd 5 (by omega) (fun s hs hsk => (hpip s hs hsk).2)⟩
  · intro p x hp4 hx
    rcases metaLoop_cases survivalF chiSquaredCDF sqrtF fmtF conf multipleStats p
      conf.HeterogeneityTests _ rec hbuild with h | ⟨test, ht, ms, hms, j, hj, h⟩
    · rw [h] at hx
      rcases foldl_writeStats_cases conf.Inputs multipleStats _ p
        with h2 | ⟨s, hs, j, hj, h2⟩
      · rw [h2] at hx
        exact Or.inl (record0_na_of_get cpra (headerFields conf).length p x hp4 hx)
      · rw [h2] at hx
        cases hx
        exact Or.inr (Or.inl ⟨s, hs, j, hj, rfl⟩)
    · rw [h] at hx
      cases hx
      exact Or.inr (Or.inr ⟨test, ht, ms, hms, j, hj, rfl⟩)

/-! ## Pipeline invariants feeding the output (towards Claim C9) -/

theorem addOutputStats_entries (P : OutputStats → Prop) :
    ∀ (m : StatsMap) (row : InputSummaryStatsRow),
      (∀ e ∈ m, ∀ os ∈ e.2, P os) → P (rowToOutputStats row) →
      ∀ e ∈ addOutputStats m row, ∀ os ∈ e.2, P os := by
  intro m
  induction m with
  | nil =>
    intro row _ hrow e he os hos
    rw [addOutputStats] at he
    rcases List.mem_singleton.mp he with rfl
    rcases List.mem_singleton.mp hos with rfl
    exact hrow
  | cons e0 rest ih =>
    intro row hm hrow e he os hos
    rw [addOutputStats] at he
    by_cases hke : e0.1 = row.cpra
    · rw [if_pos hke] at he
      rcases List.mem_cons.mp he with rfl | he2
      · rcases List.mem_append.mp hos with hos2 | hos2
        · exact hm e0 (List.mem_cons_self _ _) os hos2
        · rcases List.mem_singleton.mp hos2 with rfl
          exact hrow
      · exact hm e (List.mem_cons_of_mem _ he2) os hos
    · rw [if_neg hke] at he
      rcases List.mem_cons.mp he with rfl | he2
      · exact hm e (List.mem_cons_self _ _) os hos
      · exact ih row (fun e2 h2 => hm e2 (List.mem_cons_of_mem _ h2)) hrow
          e he2 os hos

theorem foldl_addOutputStats_entries (P : OutputStats → Prop) :
    ∀ (rows : List InputSummaryStatsRow) (m : StatsMap),
      (∀ e ∈ m, ∀ os ∈ e.2, P os) →
      (∀ r ∈ rows, P (rowToOutputStats r)) →
      ∀ e ∈ rows.foldl addOutputStats m, ∀ os ∈ e.2, P os := by
  intro rows
  induction rows with
  | nil => intro m hm _; exact hm
  | cons r rest ih =>
    intro m hm hrows
    rw [List.foldl_cons]
    exact ih (addOutputStats m r)
      (addOutputStats_entries P m r hm (hrows r (List.mem_cons_self _ _)))
      (fun r2 h2 => hrows r2 (List.mem_cons_of_mem _ h2))

theorem mem_collectSelectedRows_tag
    {r : InputSummaryStatsRow} {inputs : List (InputConf × SummaryFile)}
    {selectedVariants : List CPRA}
    (h : r ∈ collectSelectedRows inputs selectedVariants) :
    ∃ cf ∈ inputs, r.Tag = cf.1.tag := by
  rw [collectSelectedRows] at h
  rcases List.mem_flatten.mp h with ⟨l, hl, hrl⟩
  rcases List.mem_map.mp hl with ⟨cf, hcf, rfl⟩
  exact ⟨cf, hcf, mem_streamRowsFromSelection_tag hrl⟩

theorem findVariantStats_entries (inputs : List (InputConf × SummaryFile))
    (selectedVariants : List CPRA) :
    ∀ e ∈ findVariantStats inputs selectedVariants, ∀ os ∈ e.2,
      os.PIP = "NA" ∧ os.CS = "NA" ∧ ∃ cf ∈ inputs, os.Tag = cf.1.tag := by
  rw [findVariantStats]
  refine foldl_addOutputStats_entries _ _ [] (fun e he => by simp at he) ?_
  intro r hr
  exact ⟨rfl, rfl, mem_collectSelectedRows_tag hr⟩

theorem mem_streamFinemapFile_tag (inputConf : InputConf) :
    ∀ (file : FinemapFile) (rows : List InputFinemapRow),
      streamFinemapFile inputConf file = .ok rows →
      ∀ r ∈ rows, r.Tag = inputConf.tag := by
  intro file
  induction file with
  | nil =>
    intro rows h r hr
    rw [streamFinemapFile] at h
    cases h
    simp at hr
  | cons entry rest ih =>
    intro rows h r hr
    rw [streamFinemapFile] at h
    cases hs : goStringsSplit entry.1 ':' with
    | nil => rw [hs] at h; exact absurd h (by simp)
    | cons a as =>
      rw [hs] at h
      match as, h with
      | [b, c, d], h =>
        cases htail : streamFinemapFile inputConf rest with
        | error e => rw [htail] at h; simp [Bind.bind, Except.bind] at h
        | ok tail =>
          rw [htail] at h
          simp only [Bind.bind, Except.bind, Except.ok.injEq] at h
          subst h
          rcases List.mem_cons.mp hr with rfl | hr2
          · rfl
          · exact ih tail htail r hr2
      | [], h => exact absurd h (by simp)
      | [b], h => exact absurd h (by simp)
      | [b, c], h => exact absurd h (by simp)
      | b :: c :: d :: e :: fs, h => exact absurd h (by simp)

theorem gatherFinemapRows_tags :
    ∀ (inputs : List (InputConf × FinemapFile)) (rows : List InputFinemapRow),
      gatherFinemapRows inputs = .ok rows →
      ∀ r ∈ rows, ∃ cf ∈ inputs, cf.1.finemapFilepath ≠ "" ∧ r.Tag = cf.1.tag := by
  intro inputs
  induction inputs with
  | nil =>
    intro rows h r hr
    rw [gatherFinemapRows] at h
    cases h
    simp at hr
  | cons cf rest ih =>
    intro rows h r hr
    rw [gatherFinemapRows] at h
    by_cases hfp : cf.1.finemapFilepath ≠ ""
    · rw [if_pos hfp] at h
      cases hxs : streamFinemapFile cf.1 cf.2 with
      | error e => rw [hxs] at h; simp [Bind.bind, Except.bind] at h
      | ok xs =>
        rw [hxs] at h
        cases hys : gatherFinemapRows rest with
        | error e => rw [hys] at h; simp [Bind.bind, Except.bind] at h
        | ok ys =>
          rw [hys] at h
          simp only [Bind.bind, Except.bind, Except.ok.injEq] at h
          subst h
          rcases List.mem_append.mp hr with hr2 | hr2
          · exact ⟨cf, List.mem_cons_self _ _, hfp,
              mem_streamFinemapFile_tag cf.1 cf.2 xs hxs r hr2⟩
          · rcases ih ys hys r hr2 with ⟨cg, hcg, hg1, hg2⟩
            exact ⟨cg, List.mem_cons_of_mem _ hcg, hg1, hg2⟩
    · rw [if_neg hfp] at h
      rcases ih rows h r hr with ⟨cg, hcg, hg1, hg2⟩
      exact ⟨cg, List.mem_cons_of_mem _ hcg, hg1, hg2⟩

theorem fmLookup_addFmRow_ne (row : InputFinemapRow) (t : String) (k : CPRA)
    (hne : row.Tag ≠ t) :
    ∀ g : FmGather, fmLookup (addFmRow g row) t k = fmLookup g t k := by
  intro g
  induction g with
  | nil =>
    simp only [addFmRow, fmLookup]
    split
    · next hcond => exact absurd (congrArg Prod.fst hcond) hne
    · rfl
  | cons e rest ih =>
    rw [addFmRow]
    by_cases he : e.1 = (row.Tag, row.cpra)
    · rw [if_pos he]
      simp only [fmLookup]
      split
      · next hcond => exact absurd (congrArg Prod.fst hcond) hne
      · split
        · next hcond2 =>
          exact absurd (congrArg Prod.fst (he.symm.trans hcond2)) hne
        · rfl
    · rw [if_neg he]
      simp only [fmLookup]
      split
      · rfl
      · exact ih

theorem fmLookup_foldl_none (t : String) (k : CPRA) :
    ∀ (rows : List InputFinemapRow) (g : FmGather),
      (∀ r ∈ rows, r.Tag ≠ t) →
      fmLookup (rows.foldl addFmRow g) t k = fmLookup g t k := by
  intro rows
  induction rows with
  | nil => intro g _; rfl
  | cons r rest ih =>
    intro g hne
    rw [List.foldl_cons,
      ih (addFmRow g r) (fun r2 h2 => hne r2 (List.mem_cons_of_mem _ h2)),
      fmLookup_addFmRow_ne r t k (hne r (List.mem_cons_self _ _)) g]

theorem combined_entries (conf : Conf) (sumFiles : List SummaryFile)
    (fmFiles : List FinemapFile) (selectedVariants : List CPRA) (m2 : StatsMap)
    (hNodup : (conf.Inputs.map (fun ic => ic.tag)).Nodup)
    (hcomb : combineFinemapping (conf.Inputs.zip fmFiles)
      (findVariantStats (conf.Inputs.zip sumFiles) selectedVariants) = .ok m2) :
    ∀ e ∈ m2, ∀ os ∈ e.2,
      (∃ cf ∈ conf.Inputs, os.Tag = cf.tag)
      ∧ (∀ dIdx (hd : dIdx < conf.Inputs.length),
          os.Tag = (conf.Inputs.get ⟨dIdx, hd⟩).tag →
          (conf.Inputs.get ⟨dIdx, hd⟩).finemapFilepath = "" →
          os.PIP = "NA" ∧ os.CS = "NA") := by
  rw [combineFinemapping] at hcomb
  cases hrows : gatherFinemapRows (conf.Inputs.zip fmFiles) with
  | error e => rw [hrows] at hcomb; simp [Bind.bind, Except.bind] at hcomb
  | ok rows =>
    rw [hrows] at hcomb
    simp only [Bind.bind, Except.bind, Except.ok.injEq] at hcomb
    subst hcomb
    intro e2 he2 os2 hos2
    rcases List.mem_map.mp he2 with ⟨e, he, rfl⟩
    rcases List.mem_map.mp hos2 with ⟨os, hos, rfl⟩
    have hfv := findVariantStats_entries (conf.Inputs.zip sumFiles)
      selectedVariants e he os hos
    rcases hfv with ⟨hpip, hcs, cf, hcf, htag⟩
    have hcf1 : cf.1 ∈ conf.Inputs := (List.of_mem_zip hcf).1
    have hTagPres : ∀ g : FmGather,
        (match fmLookup g os.Tag e.1 with
          | some finemapStats =>
            { os with PIP := finemapStats.PIP, CS := finemapStats.CS }
          | none => os).Tag = os.Tag := by
      intro g
      cases fmLookup g os.Tag e.1 with
      | some fmStats => rfl
      | none => rfl
    constructor
    · rw [hTagPres]
      exact ⟨cf.1, hcf1, htag⟩
    · intro dIdx hd htagd hfp
      rw [hTagPres] at htagd
      have hlook : fmLookup (rows.foldl addFmRow []) os.Tag e.1 = none := by
        rw [fmLookup_foldl_none os.Tag e.1 rows [] ?_]
        · rfl
        · intro r hr hrt
          rcases gatherFinemapRows_tags (conf.Inputs.zip fmFiles) rows hrows r hr
            with ⟨cg, hcg, hgfp, hgt⟩
          have hcg1 : cg.1 ∈ conf.Inputs := (List.of_mem_zip hcg).1
          have hdmem : conf.Inputs.get ⟨dIdx, hd⟩ ∈ conf.Inputs :=
            List.get_mem conf.Inputs dIdx hd
          have : cg.1 = conf.Inputs.get ⟨dIdx, hd⟩ :=
            List.inj_on_of_nodup_map hNodup hcg1 hdmem
              (by rw [← hgt, hrt, htagd])
          rw [this] at hgfp
          exact hgfp hfp
      rw [hlook]
      exact ⟨hpip, hcs⟩

theorem buildRecords_spec (survivalF chiSquaredCDF sqrtF : ℚ → ℚ)
    (fmtF : ℚ → String) (conf : Conf) :
    ∀ (m : StatsMap) (recsData : List (List String)),
      buildRecords survivalF chiSquaredCDF sqrtF fmtF conf m = .ok recsData →
      recsData.length = m.length
      ∧ ∀ i (hi : i < m.length) (hi2 : i < recsData.length),
          buildRecord survivalF chiSquaredCDF sqrtF fmtF conf (m.get ⟨i, hi⟩).1
            (m.get ⟨i, hi⟩).2 = .ok (recsData.get ⟨i, hi2⟩) := by
  intro m
  induction m with
  | nil =>
    intro recsData h
    rw [buildRecords] at h
    cases h
    exact ⟨rfl, fun i hi => by simp at hi⟩
  | cons e rest ih =>
    intro recsData h
    rw [buildRecords] at h
    cases hrec : buildRecord survivalF chiSquaredCDF sqrtF fmtF conf e.1 e.2 with
    | error err => rw [hrec] at h; simp [Bind.bind, Except.bind] at h
    | ok record =>
      rw [hrec] at h
      cases htail : buildRecords survivalF chiSquaredCDF sqrtF fmtF conf rest with
      | error err => rw [htail] at h; simp [Bind.bind, Except.bind] at h
      | ok tail =>
        rw [htail] at h
        simp only [Bind.bind, Except.bind, Except.ok.injEq] at h
        subst h
        rcases ih tail htail with ⟨hlen, hptw⟩
        refine ⟨by simpa using hlen, ?_⟩
        intro i hi hi2
        match i with
        | 0 => exact hrec
        | Nat.succ j =>
          exact hptw j (Nat.lt_of_succ_lt_succ hi) (Nat.lt_of_succ_lt_succ hi2)

/-- Claim C9: in a pipeline run with pairwise-distinct dataset tags, every
data record of the output table has the full header width, a dataset with
no collected row for the record's variant has the missing marker NA in all
six of its cells, a dataset configured without a fine-mapping file has NA
in its PIP and CS cells for every variant, and every non-key cell is either
NA, a field carried from a collected row, or a field of a computed meta
statistic — never an absent or empty cell. -/
theorem mmpioMain_missing_cells (survivalF chiSquaredCDF sqrtF : ℚ → ℚ)
    (fmtF : ℚ → String) (conf : Conf) (sumFiles : List SummaryFile)
    (fmFiles : List FinemapFile) (selectedVariants : List CPRA)
    (combined : StatsMap) (recs : List (List String))
    (hNodup : (conf.Inputs.map (fun ic => ic.tag)).Nodup)
    (hsel : scanForVariantSelection (conf.Inputs.zip sumFiles)
      = .ok selectedVariants)
    (hcomb : combineFinemapping (conf.Inputs.zip fmFiles)
      (findVariantStats (conf.Inputs.zip sumFiles) selectedVariants)
      = .ok combined)
    (hout : writeMMPOutput survivalF chiSquaredCDF sqrtF fmtF conf combined
      = .ok recs) :
    mmpioMain survivalF chiSquaredCDF sqrtF fmtF conf sumFiles fmFiles = .ok recs
    ∧ recs.length = combined.length + 1
    ∧ ∀ i (hi : i < combined.length) (hi2 : i + 1 < recs.length),
        (recs.get ⟨i + 1, hi2⟩).length = (headerFields conf).length
        ∧ (∀ dIdx (hd : dIdx < conf.Inputs.length),
            ((∀ os ∈ (combined.get ⟨i, hi⟩).2,
                os.Tag ≠ (conf.Inputs.get ⟨dIdx, hd⟩).tag) →
              ∀ j, j < 6 →
                (recs.get ⟨i + 1, hi2⟩)[lenCpraFields
                  + dIdx * statsCols.length + j]? = some "NA")
            ∧ ((conf.Inputs.get ⟨dIdx, hd⟩).finemapFilepath = "" →
                (recs.get ⟨i + 1, hi2⟩)[lenCpraFields
                  + dIdx * statsCols.length + 4]? = some "NA"
                ∧ (recs.get ⟨i + 1, hi2⟩)[lenCpraFields
                  + dIdx * statsCols.length + 5]? = some "NA"))
        ∧ (∀ p x, lenCpraFields ≤ p → (recs.get ⟨i + 1, hi2⟩)[p]? = some x →
            x = "NA"
            ∨ (∃ s ∈ (combined.get ⟨i, hi⟩).2, ∃ j, j < 6 ∧ x = statsField s j)
            ∨ (∃ test ∈ conf.HeterogeneityTests, ∃ ms,
                metaStatsForTest survivalF chiSquaredCDF sqrtF fmtF test
                  (combined.get ⟨i, hi⟩).2 = .ok ms
                ∧ ∃ j, j < 4 ∧ x = metaField ms j)) := by
  have hmain : mmpioMain survivalF chiSquaredCDF sqrtF fmtF conf sumFiles fmFiles
      = .ok recs := by
    simp only [mmpioMain]
    rw [hsel]
    simp only [Bind.bind, Except.bind]
    rw [hcomb]
    exact hout
  rw [writeMMPOutput] at hout
  cases hbr : buildRecords survivalF chiSquaredCDF sqrtF fmtF conf combined with
  | error err => rw [hbr] at hout; simp [Bind.bind, Except.bind] at hout
  | ok dataRecords =>
    rw [hbr] at hout
    simp only [Bind.bind, Except.bind, Except.ok.injEq] at hout
    subst hout
    rcases buildRecords_spec survivalF chiSquaredCDF sqrtF fmtF conf combined
      dataRecords hbr with ⟨hlen, hptw⟩
    refine ⟨hmain, by simpa using hlen, ?_⟩
    intro i hi hi2
    have hi3 : i < dataRecords.length := by omega
    have hrec := hptw i hi hi3
    have hget : (headerFields conf :: dataRecords).get ⟨i + 1, hi2⟩
        = dataRecords.get ⟨i, hi3⟩ := rfl
    rw [hget]
    have hentry := combined_entries conf sumFiles fmFiles selectedVariants
      combined hNodup hcomb (combined.get ⟨i, hi⟩)
      (List.get_mem combined i hi)
    have hTags : ∀ s ∈ (combined.get ⟨i, hi⟩).2,
        ∃ k, ∃ hk : k < conf.Inputs.length,
          s.Tag = (conf.Inputs.get ⟨k, hk⟩).tag := by
      intro s hs
      rcases (hentry s hs).1 with ⟨cf, hcf, htag⟩
      rcases List.mem_iff_get.mp hcf with ⟨n, hn⟩
      exact ⟨n.1, n.2, by rw [← hn] at htag; exact htag⟩
    rcases buildRecord_cells survivalF chiSquaredCDF sqrtF fmtF conf
      (combined.get ⟨i, hi⟩).1 (combined.get ⟨i, hi⟩).2
      (dataRecords.get ⟨i, hi3⟩) hNodup hTags hrec with ⟨hrl, hblocks, hcells⟩
    refine ⟨hrl, ?_, hcells⟩
    intro dIdx hd
    refine ⟨(hblocks dIdx hd).1, ?_⟩
    intro hfp
    refine (hblocks dIdx hd).2 ?_
    intro s hs hstag
    exact (hentry s hs).2 dIdx hd hstag hfp

def exStatsB : SummaryStats := ⟨"0.5", "0.4", "0.2", "0.3"⟩

def exSumFiles9 : List SummaryFile := [[(exK1, exStats1)], [(exK2, exStatsB)]]

def exFmFiles9 : List FinemapFile := [[], []]

def exHeader9 : List String :=
  ["chrom", "pos", "ref", "alt",
   "A_pval", "A_beta", "A_sebeta", "A_af", "A_pip", "A_cs",
   "B_pval", "B_beta", "B_sebeta", "B_af", "B_pip", "B_cs",
   "t1_meta_beta", "t1_meta_sebeta", "t1_meta_pval", "t1_meta_hetpval"]

def exRecord9 : List String :=
  ["1", "100", "A", "T", "0.001", "0.5", "0.1", "0.3", "NA", "NA",
   "NA", "NA", "NA", "NA", "NA", "NA", "NA", "NA", "NA", "NA"]

theorem mmpioMain_missing_cells_witness :
    mmpioMain (fun q => q) (fun q => q) (fun q => q) (fun _ => "M") exConf
      exSumFiles9 exFmFiles9 = .ok [exHeader9, exRecord9] :=
  (mmpioMain_missing_cells (fun q => q) (fun q => q) (fun q => q) (fun _ => "M")
    exConf exSumFiles9 exFmFiles9 [exK1] exStatsMap1 [exHeader9, exRecord9]
    (by decide) (by decide) (by decide) (by decide)).1

end Mmpio
